import Mathlib

/-!
Verification development for the generic backtracking search engine of
round-eliminator (`src/src/auto.rs`): the `Step`/`Sequence` path
representation, the `Auto` strategy contract, the recursive engine
`AutomaticSimplifications::{run, problem, simplify}`, and the resumable
external iterator `AutomaticSimplificationsIntoIterator::next`.

The `Problem` type is kept abstract (type parameter `P`), and the collaborator
operations it exposes (`num_labels`, `speedup`, `assign_chars`, `as_result`)
as well as the four strategy operations of the `Auto` trait are fields of the
`Auto` structure below: the engine is generic over all of them, exactly as the
Rust code is generic over `T : Auto` and opaque in `Problem`.

Rust panics are modelled explicitly: `Sequence` operations that can panic
return `Option` (with `none` for the panic), and engine runs return `RunRes`,
whose `panicked` constructor marks a panic and whose `nofuel` constructor
marks exhaustion of the fuel that makes the (possibly diverging) recursion a
total Lean function.
-/

variable {P S : Type}

/-- Tags distinguishing the three `Step` variants; used to state properties
about the shape of a path independently of the `Problem` payloads. -/
inductive StepTag : Type where
  | initial : StepTag
  | speedup : StepTag
  | simplify : StepTag
deriving DecidableEq

/-- Mirrors `enum Step<T>` of auto.rs: `Initial(Problem)`,
`Simplify((T, Problem))`, `Speedup(Problem)`. -/
inductive Step (P S : Type) : Type where
  | Initial : P → Step P S
  | Simplify : S × P → Step P S
  | Speedup : P → Step P S
deriving DecidableEq

/-- The `Problem` payload carried by a step (the match inside
`Sequence::current`). -/
def Step.problem : Step P S → P
  | .Initial p => p
  | .Simplify (_, p) => p
  | .Speedup p => p

/-- The variant tag of a step. -/
def Step.tag : Step P S → StepTag
  | .Initial _ => .initial
  | .Simplify _ => .simplify
  | .Speedup _ => .speedup

/-- Mirrors `struct Sequence<T>`: the list of steps (index 0 first, pushes and
pops at the tail, like the Rust `Vec`) and the count of speedup steps. -/
structure Sequence (P S : Type) : Type where
  steps : List (Step P S)
  speedups : Nat
deriving DecidableEq

/-- Mirrors `Sequence::new`: a single `Initial` step, zero speedups. -/
def Sequence.new (p : P) : Sequence P S :=
  { steps := [Step.Initial p], speedups := 0 }

/-- Mirrors `Sequence::current`, which reads `self.steps.last().unwrap()`:
`none` models the `unwrap` panic on an empty step list. -/
def Sequence.current? (s : Sequence P S) : Option P :=
  s.steps.getLast?.map Step.problem

/-- Mirrors `Sequence::push`: append at the tail of the step vector. -/
def Sequence.push (s : Sequence P S) (st : Step P S) : Sequence P S :=
  { s with steps := s.steps ++ [st] }

/-- Mirrors `Sequence::pop`, which calls `Vec::pop` and discards the result:
on an empty vector `Vec::pop` returns `None` without panicking, so this
operation is total and is a silent no-op on an empty step list. -/
def Sequence.pop (s : Sequence P S) : Sequence P S :=
  { s with steps := s.steps.dropLast }

/-- Mirrors `Sequence::pop_speedup` (`self.speedups -= 1; self.pop()`): the
unchecked `usize` decrement is modelled by `none` when `speedups = 0`, which
is the underflow case. -/
def Sequence.pop_speedup? (s : Sequence P S) : Option (Sequence P S) :=
  match s.speedups with
  | 0 => none
  | n + 1 => some { (s.pop) with speedups := n }

/-- Mirrors `Sequence::pop_simplification` (just `self.pop()`). -/
def Sequence.pop_simplification (s : Sequence P S) : Sequence P S :=
  s.pop

/-- The strategy contract, mirroring `trait Auto` of auto.rs together with
the `Problem` collaborator operations the engine invokes.

Modelled from the spec: the `Problem` operations `num_labels`, `speedup`,
`assign_chars` and `as_result` are code of this repository that is not under
src/ (only their callers in auto.rs are); per the spec the Problem handle is
an opaque, cloneable value and these are its observers/transforms, so they
are modelled as abstract pure functions.  Likewise the trait methods
`simplifications`, `should_yield`, `should_continue` and `simplify` take
`&mut` receivers in the Rust trait declaration, but the spec's strategy
contract states they may read but must not mutate their arguments and must
be pure functions of the two Sequences and the budget, and the lazy
`simplifications` iterator must be a finite sequence; they are therefore
modelled as pure functions, with the candidate iterator as a `List S`. -/
structure Auto (P S : Type) : Type where
  num_labels : P → Nat
  speedup : P → P
  assign_chars : P → P
  as_result : P → P
  simplifications : Sequence P S → Nat → List S
  should_yield : Sequence P S → Sequence P S → Nat → Bool
  should_continue : Sequence P S → Sequence P S → Nat → Bool
  simplify : P → S → P

/-- Mirrors `Sequence::push_speedup`: increment the speedup counter, read the
current problem (`current_mut`, whose `unwrap` panic is the `none` case),
apply `speedup` then `assign_chars`, and push a `Speedup` step. -/
def Sequence.push_speedup? (A : Auto P S) (s : Sequence P S) : Option (Sequence P S) :=
  s.current?.map fun last =>
    { steps := s.steps ++ [Step.Speedup (A.assign_chars (A.speedup last))],
      speedups := s.speedups + 1 }

/-- Mirrors `Sequence::push_simplification`: read the current problem, apply
`T::simplify`, and push a `Simplify` step carrying the simplification value
and the new problem. -/
def Sequence.push_simplification? (A : Auto P S) (simpl : S) (s : Sequence P S) :
    Option (Sequence P S) :=
  s.current?.map fun last =>
    s.push (Step.Simplify (simpl, A.simplify last simpl))

/-- Mirrors `Sequence::make_printable`, which calls `as_result` on the
problem of every step (the canonicalize-for-printing pass of the spec). -/
def Step.finalize (A : Auto P S) : Step P S → Step P S
  | .Initial p => .Initial (A.as_result p)
  | .Simplify (t, p) => .Simplify (t, A.as_result p)
  | .Speedup p => .Speedup (A.as_result p)

/-- The step-list map performed by `Sequence::make_printable`. -/
def Sequence.make_printable (A : Auto P S) (s : Sequence P S) : Sequence P S :=
  { s with steps := s.steps.map (Step.finalize A) }

/-- Mirrors `struct AutomaticSimplifications<T>`: the live path `sol`, the
best-so-far path `best`, and the two budgets. -/
structure AutomaticSimplifications (P S : Type) : Type where
  sol : Sequence P S
  best : Sequence P S
  maxiter : Nat
  maxlabels : Nat
deriving DecidableEq

/-- Mirrors `AutomaticSimplifications::new`: `sol` is a fresh sequence from
the initial problem and `best` is its clone. -/
def AutomaticSimplifications.new (p : P) (maxiter maxlabels : Nat) :
    AutomaticSimplifications P S :=
  { sol := Sequence.new p, best := Sequence.new p,
    maxiter := maxiter, maxlabels := maxlabels }

/-- Result of running a fueled model of the engine: `ok` carries the list of
sequences handed to the caller (in order) together with the final engine
state, `panicked` marks a Rust panic, and `nofuel` marks fuel exhaustion
(the Rust recursion would still be running). -/
inductive RunRes (α : Type) : Type where
  | ok : α → RunRes α
  | panicked : RunRes α
  | nofuel : RunRes α
deriving DecidableEq

mutual

/-- Mirrors `AutomaticSimplifications::problem`: if `should_yield`, replace
`best` by a printable clone of `sol` and emit it to the callback; the second
statement of `problem` (the `should_continue` check and the recursion into
`simplify`) is the helper `afterYieldF` below.  The emitted sequences are
collected in order in the returned list, modelling the callback
invocations. -/
def problemF (A : Auto P S) (fuel : Nat) (e : AutomaticSimplifications P S) :
    RunRes (List (Sequence P S) × AutomaticSimplifications P S) :=
  match fuel with
  | 0 => .nofuel
  | fuel' + 1 =>
    if A.should_yield e.sol e.best e.maxiter then
      afterYieldF A fuel' [Sequence.make_printable A e.sol]
        { e with best := Sequence.make_printable A e.sol }
    else
      afterYieldF A fuel' [] e

/-- The second statement of `AutomaticSimplifications::problem`: if
`should_continue` (evaluated against the possibly updated `best`), recurse
into `simplify`; `out1` is the sequence just emitted by the first statement,
if any. -/
def afterYieldF (A : Auto P S) (fuel : Nat) (out1 : List (Sequence P S))
    (e1 : AutomaticSimplifications P S) :
    RunRes (List (Sequence P S) × AutomaticSimplifications P S) :=
  match fuel with
  | 0 => .nofuel
  | fuel' + 1 =>
    if A.should_continue e1.sol e1.best e1.maxiter then
      match simplifyF A fuel' e1 with
      | .ok (out2, e2) => .ok (out1 ++ out2, e2)
      | .panicked => .panicked
      | .nofuel => .nofuel
    else
      .ok (out1, e1)

/-- Mirrors `AutomaticSimplifications::simplify`: if the current problem has
at most `maxlabels` labels, push a speedup step, recurse into `problem`, and
pop the speedup; otherwise iterate over the strategy's candidate
simplifications (the `for` loop is `forSimplsF`). -/
def simplifyF (A : Auto P S) (fuel : Nat) (e : AutomaticSimplifications P S) :
    RunRes (List (Sequence P S) × AutomaticSimplifications P S) :=
  match fuel with
  | 0 => .nofuel
  | fuel' + 1 =>
    match Sequence.current? e.sol with
    | none => .panicked
    | some cur =>
      if A.num_labels cur ≤ e.maxlabels then
        match Sequence.push_speedup? A e.sol with
        | none => .panicked
        | some sol1 =>
          match problemF A fuel' { e with sol := sol1 } with
          | .ok (out, e2) =>
            match Sequence.pop_speedup? e2.sol with
            | none => .panicked
            | some sol2 => .ok (out, { e2 with sol := sol2 })
          | .panicked => .panicked
          | .nofuel => .nofuel
      else
        forSimplsF A fuel' (A.simplifications e.sol e.maxlabels) e

/-- The `for simpl in T::simplifications(..)` loop in
`AutomaticSimplifications::simplify`: for each candidate in order, push the
simplification, recurse into `simplify`, and pop it again. -/
def forSimplsF (A : Auto P S) (fuel : Nat) (l : List S)
    (e : AutomaticSimplifications P S) :
    RunRes (List (Sequence P S) × AutomaticSimplifications P S) :=
  match fuel with
  | 0 => .nofuel
  | fuel' + 1 =>
    match l with
    | [] => .ok ([], e)
    | simpl :: rest =>
      match Sequence.push_simplification? A simpl e.sol with
      | none => .panicked
      | some sol1 =>
        match simplifyF A fuel' { e with sol := sol1 } with
        | .ok (out, e2) =>
          match forSimplsF A fuel' rest { e2 with sol := Sequence.pop_simplification e2.sol } with
          | .ok (out2, e4) => .ok (out ++ out2, e4)
          | .panicked => .panicked
          | .nofuel => .nofuel
        | .panicked => .panicked
        | .nofuel => .nofuel

end

/-- Mirrors `AutomaticSimplifications::run`, which just calls `problem` with
the callback; the returned list is the ordered list of callback arguments. -/
def AutomaticSimplifications.runF (A : Auto P S) (fuel : Nat)
    (e : AutomaticSimplifications P S) :
    RunRes (List (Sequence P S) × AutomaticSimplifications P S) :=
  problemF A fuel e

/-- Mirrors `enum State<T>` of the external iterator; `SimplifySimplify`
carries the not-yet-consumed part of the candidate iterator. -/
inductive MState (P S : Type) : Type where
  | Problem : MState P S
  | ProblemAfterCheckYield : MState P S
  | Simplify : MState P S
  | SimplifyAfterProblemCall : MState P S
  | SimplifyAfterSimplifyCall : MState P S
  | SimplifySimplify : List S → MState P S
deriving DecidableEq

/-- Mirrors `struct AutomaticSimplificationsIntoIterator<T>`: the engine
state plus the marker stack.  The Rust `Vec` stack's last element (its top)
is the head of the list here. -/
structure ItState (P S : Type) : Type where
  auto : AutomaticSimplifications P S
  stack : List (MState P S)
deriving DecidableEq

/-- Mirrors `IntoIterator::into_iter`: initial marker stack `[Problem]`. -/
def AutomaticSimplifications.into_iter (a : AutomaticSimplifications P S) :
    ItState P S :=
  { auto := a, stack := [MState.Problem] }

/-- Outcome of one iteration of the `loop` body inside `next()`: a value is
returned to the caller (`yielded`), the loop continues with a new state
(`stepped`), the stack is empty and `next()` returns `None` (`finished`),
or a `Sequence` operation panicked. -/
inductive IterOut (P S : Type) : Type where
  | yielded : Sequence P S → ItState P S → IterOut P S
  | stepped : ItState P S → IterOut P S
  | finished : IterOut P S
  | panicked : IterOut P S
deriving DecidableEq

/-- One iteration of the `loop` inside
`AutomaticSimplificationsIntoIterator::next`, by cases on the top marker,
translated arm for arm from auto.rs. -/
def iterStep (A : Auto P S) (it : ItState P S) : IterOut P S :=
  match it.stack with
  | [] => .finished
  | top :: rest =>
    match top with
    | .Problem =>
      let st := MState.ProblemAfterCheckYield :: rest
      if A.should_yield it.auto.sol it.auto.best it.auto.maxiter then
        let b := Sequence.make_printable A it.auto.sol
        .yielded b { auto := { it.auto with best := b }, stack := st }
      else
        .stepped { auto := it.auto, stack := st }
    | .ProblemAfterCheckYield =>
      if A.should_continue it.auto.sol it.auto.best it.auto.maxiter then
        .stepped { auto := it.auto, stack := MState.Simplify :: rest }
      else
        .stepped { auto := it.auto, stack := rest }
    | .Simplify =>
      match Sequence.current? it.auto.sol with
      | none => .panicked
      | some cur =>
        if A.num_labels cur ≤ it.auto.maxlabels then
          match Sequence.push_speedup? A it.auto.sol with
          | none => .panicked
          | some sol1 =>
            .stepped { auto := { it.auto with sol := sol1 },
                       stack := MState.Problem :: MState.SimplifyAfterProblemCall :: rest }
        else
          .stepped { auto := it.auto,
                     stack := MState.SimplifySimplify
                       (A.simplifications it.auto.sol it.auto.maxlabels) :: rest }
    | .SimplifyAfterProblemCall =>
      match Sequence.pop_speedup? it.auto.sol with
      | none => .panicked
      | some sol1 => .stepped { auto := { it.auto with sol := sol1 }, stack := rest }
    | .SimplifySimplify l =>
      match l with
      | [] => .stepped { auto := it.auto, stack := rest }
      | simpl :: l2 =>
        match Sequence.push_simplification? A simpl it.auto.sol with
        | none => .panicked
        | some sol1 =>
          .stepped { auto := { it.auto with sol := sol1 },
                     stack := MState.Simplify :: MState.SimplifyAfterSimplifyCall ::
                       MState.SimplifySimplify l2 :: rest }
    | .SimplifyAfterSimplifyCall =>
      .stepped { auto := { it.auto with sol := Sequence.pop_simplification it.auto.sol },
                 stack := rest }

/-- Mirrors one call of `next()`: iterate the loop body until a value is
yielded or the stack is empty (`.ok (none, _)` models returning `None`);
fueled because a misbehaving strategy makes the loop diverge. -/
def iterNext (A : Auto P S) (fuel : Nat) (it : ItState P S) :
    RunRes (Option (Sequence P S) × ItState P S) :=
  match fuel with
  | 0 => .nofuel
  | fuel' + 1 =>
    match iterStep A it with
    | .finished => .ok (none, it)
    | .panicked => .panicked
    | .yielded v it2 => .ok (some v, it2)
    | .stepped it2 => iterNext A fuel' it2

/-- Run `n` iterations of the loop body from a given iterator state,
collecting the yielded values in order (the fused trace of repeated `next()`
calls); an empty stack stops early since `iterStep` is then `finished`
forever. -/
def runN (A : Auto P S) (n : Nat) (it : ItState P S) :
    RunRes (List (Sequence P S) × ItState P S) :=
  match n with
  | 0 => .ok ([], it)
  | n' + 1 =>
    match iterStep A it with
    | .finished => .ok ([], it)
    | .panicked => .panicked
    | .yielded v it2 =>
      match runN A n' it2 with
      | .ok (out, it3) => .ok (v :: out, it3)
      | .panicked => .panicked
      | .nofuel => .nofuel
    | .stepped it2 => runN A n' it2

/-- The ordered sequence of values produced by successive calls of `next()`
until one returns `None`: each constructor consumes exactly one (fueled)
`next()` call. -/
inductive YieldsAll (A : Auto P S) : ItState P S → List (Sequence P S) → ItState P S → Prop where
  | nil : ∀ (it it2 : ItState P S) (g : Nat),
      iterNext A g it = .ok (none, it2) → YieldsAll A it [] it2
  | cons : ∀ (it it1 it2 : ItState P S) (v : Sequence P S)
      (out : List (Sequence P S)) (g : Nat),
      iterNext A g it = .ok (some v, it1) → YieldsAll A it1 out it2 →
      YieldsAll A it (v :: out) it2

/-- Number of `Speedup` steps in a step list. -/
def countSpeedups : List (Step P S) → Nat
  | [] => 0
  | Step.Speedup _ :: r => countSpeedups r + 1
  | Step.Initial _ :: r => countSpeedups r
  | Step.Simplify _ :: r => countSpeedups r

/-- Number of `speedup` tags in a tag list. -/
def countSpeedupTags : List StepTag → Nat
  | [] => 0
  | StepTag.speedup :: r => countSpeedupTags r + 1
  | StepTag.initial :: r => countSpeedupTags r
  | StepTag.simplify :: r => countSpeedupTags r


/-- The undo obligations recorded on the marker stack, top first: each
`SimplifyAfterProblemCall` will pop one `Speedup` step and each
`SimplifyAfterSimplifyCall` will pop one `Simplify` step. -/
def pendingUndo : List (MState P S) → List StepTag
  | [] => []
  | MState.SimplifyAfterProblemCall :: r => StepTag.speedup :: pendingUndo r
  | MState.SimplifyAfterSimplifyCall :: r => StepTag.simplify :: pendingUndo r
  | MState.Problem :: r => pendingUndo r
  | MState.ProblemAfterCheckYield :: r => pendingUndo r
  | MState.Simplify :: r => pendingUndo r
  | MState.SimplifySimplify _ :: r => pendingUndo r

/-- Well-formedness of an iterator state: the live path consists of the
`Initial` root followed, in order, by exactly the steps whose undo is still
pending on the marker stack, and the speedup counter counts the pending
speedup steps. -/
def MachineInv (it : ItState P S) : Prop :=
  it.auto.sol.steps.map Step.tag = StepTag.initial :: (pendingUndo it.stack).reverse ∧
  it.auto.sol.speedups = countSpeedupTags (pendingUndo it.stack)



/-- The list of sequences handed to the caller by a terminating engine run
(empty if the run panicked or is still running). -/
def RunRes.emitted :
    RunRes (List (Sequence P S) × AutomaticSimplifications P S) → List (Sequence P S)
  | .ok (out, _) => out
  | .panicked => []
  | .nofuel => []

/-- A strategy instance that never yields and never continues; used to
evaluate the model on concrete inputs. -/
def trivialAuto : Auto Unit Unit where
  num_labels := fun _ => 0
  speedup := fun p => p
  assign_chars := fun p => p
  as_result := fun p => p
  simplifications := fun _ _ => []
  should_yield := fun _ _ _ => false
  should_continue := fun _ _ _ => false
  simplify := fun p _ => p

/-- A strategy instance that yields exactly at the root and never
continues. -/
def yieldRootAuto : Auto Unit Unit where
  num_labels := fun _ => 0
  speedup := fun p => p
  assign_chars := fun p => p
  as_result := fun p => p
  simplifications := fun _ _ => []
  should_yield := fun s _ _ => s.steps.length == 1
  should_continue := fun _ _ _ => false
  simplify := fun p _ => p

/-- A strategy instance over `P = Nat` (a problem is its own label count)
whose root problem has one label: with `maxlabels = 0` the engine takes the
simplification branch at the root, then a speedup on the zero-label child,
and yields there. -/
def simplifyAnywayAuto : Auto Nat Unit where
  num_labels := fun p => p
  speedup := fun p => p
  assign_chars := fun p => p
  as_result := fun p => p
  simplifications := fun s _ => if s.steps.length == 1 then [()] else []
  should_yield := fun s _ _ => s.steps.length == 3
  should_continue := fun s _ _ => decide (s.steps.length < 2)
  simplify := fun _ _ => 0

/-- A strategy instance offering two candidate simplifications `[10, 20]` at
the root, both of whose subtrees yield. -/
def twoCandidatesAuto : Auto Nat Nat where
  num_labels := fun p => if p == 1 then 1 else 0
  speedup := fun p => p
  assign_chars := fun p => p
  as_result := fun p => p
  simplifications := fun s _ => if s.steps.length == 1 then [10, 20] else []
  should_yield := fun s _ _ => s.steps.length == 3
  should_continue := fun s _ _ => decide (s.steps.length < 2)
  simplify := fun _ simpl => simpl

/-- The strategy of the spec's concrete scenario: zero labels everywhere,
yield exactly at two speedup steps, continue while the speedup count is
below `maxiter`. -/
def speedTwiceAuto : Auto Unit Unit where
  num_labels := fun _ => 0
  speedup := fun p => p
  assign_chars := fun p => p
  as_result := fun p => p
  simplifications := fun _ _ => []
  should_yield := fun s _ _ => countSpeedups s.steps == 2
  should_continue := fun s _ m => decide (s.speedups < m)
  simplify := fun p _ => p

/-! ### Basic facts about the `Sequence` operations -/

theorem Sequence.current?_eq_none_iff (s : Sequence P S) :
    s.current? = none ↔ s.steps = [] := by
  cases s with
  | mk steps speedups =>
    simp [Sequence.current?, List.getLast?_eq_none_iff]

theorem Sequence.current?_isSome (s : Sequence P S) (h : s.steps ≠ []) :
    ∃ cur, s.current? = some cur := by
  cases hc : s.current? with
  | none => exact absurd ((Sequence.current?_eq_none_iff s).1 hc) h
  | some cur => exact ⟨cur, rfl⟩

theorem Sequence.push_speedup?_of_current (A : Auto P S) (s : Sequence P S) (cur : P)
    (h : s.current? = some cur) :
    s.push_speedup? A =
      some { steps := s.steps ++ [Step.Speedup (A.assign_chars (A.speedup cur))],
             speedups := s.speedups + 1 } := by
  simp [Sequence.push_speedup?, h]

theorem Sequence.push_simplification?_of_current (A : Auto P S) (s : Sequence P S)
    (simpl : S) (cur : P) (h : s.current? = some cur) :
    s.push_simplification? A simpl =
      some (s.push (Step.Simplify (simpl, A.simplify cur simpl))) := by
  simp [Sequence.push_simplification?, h]

theorem Sequence.pop_push (s : Sequence P S) (st : Step P S) : (s.push st).pop = s := by
  cases s with
  | mk steps speedups => simp [Sequence.push, Sequence.pop, List.dropLast_concat]

theorem Sequence.pop_speedup?_concat (s : Sequence P S) (st : Step P S) :
    Sequence.pop_speedup? { steps := s.steps ++ [st], speedups := s.speedups + 1 } = some s := by
  cases s with
  | mk steps speedups =>
    simp [Sequence.pop_speedup?, Sequence.pop, List.dropLast_concat]

/-! ### The engine restores the live path: the stack-symmetry lemma -/


/-- After any engine call returns, the live `sol` and the two budgets are
exactly what they were on entry (proved simultaneously for the four mutually
recursive pieces of the engine). -/
theorem engine_preserves (A : Auto P S) :
    ∀ fuel : Nat,
      (∀ e out e2, problemF A fuel e = .ok (out, e2) →
        e2.sol = e.sol ∧ e2.maxiter = e.maxiter ∧ e2.maxlabels = e.maxlabels) ∧
      (∀ out1 e1 out e2, afterYieldF A fuel out1 e1 = .ok (out, e2) →
        e2.sol = e1.sol ∧ e2.maxiter = e1.maxiter ∧ e2.maxlabels = e1.maxlabels) ∧
      (∀ e out e2, simplifyF A fuel e = .ok (out, e2) →
        e2.sol = e.sol ∧ e2.maxiter = e.maxiter ∧ e2.maxlabels = e.maxlabels) ∧
      (∀ l e out e2, forSimplsF A fuel l e = .ok (out, e2) →
        e2.sol = e.sol ∧ e2.maxiter = e.maxiter ∧ e2.maxlabels = e.maxlabels) := by
  intro fuel
  induction fuel with
  | zero =>
    refine ⟨?_, ?_, ?_, ?_⟩
    · intro e out e2 h; simp [problemF] at h
    · intro out1 e1 out e2 h
      simp [afterYieldF] at h
    · intro e out e2 h; simp [simplifyF] at h
    · intro l e out e2 h; simp [forSimplsF] at h
  | succ fuel ih =>
    obtain ⟨ihP, ihY, ihS, ihF⟩ := ih
    have hsimp : ∀ e out e2, simplifyF A (fuel + 1) e = .ok (out, e2) →
        e2.sol = e.sol ∧ e2.maxiter = e.maxiter ∧ e2.maxlabels = e.maxlabels := by
      intro e out e2 h
      rw [simplifyF] at h
      split at h
      · simp at h
      · rename_i cur hcur
        split at h
        · rename_i hnl
          split at h
          · simp at h
          · rename_i sol1 hpush
            rw [Sequence.push_speedup?_of_current A e.sol cur hcur] at hpush
            injection hpush with hpush
            split at h
            · rename_i r hp
              obtain ⟨out', e2'⟩ := r
              have hres := ihP _ _ _ hp
              split at h
              · simp at h
              · rename_i sol2 hpop
                simp only at hres
                rw [hres.1, ← hpush, Sequence.pop_speedup?_concat] at hpop
                injection hpop with hpop
                simp only [RunRes.ok.injEq, Prod.mk.injEq] at h
                rcases h with ⟨h1, h2⟩
                subst h2
                refine ⟨?_, ?_, ?_⟩
                · rw [← hpop]
                · simpa using hres.2.1
                · simpa using hres.2.2
            · simp at h
            · simp at h
        · rename_i hnl
          exact ihF _ _ _ _ h
    have hfor : ∀ l e out e2, forSimplsF A (fuel + 1) l e = .ok (out, e2) →
        e2.sol = e.sol ∧ e2.maxiter = e.maxiter ∧ e2.maxlabels = e.maxlabels := by
      intro l e out e2 h
      rw [forSimplsF.eq_def] at h
      simp only at h
      split at h
      · simp only [RunRes.ok.injEq, Prod.mk.injEq] at h
        rcases h with ⟨h1, h2⟩
        subst h2
        exact ⟨rfl, rfl, rfl⟩
      · rename_i simpl rest
        split at h
        · simp at h
        · rename_i sol1 hpush
          obtain ⟨cur, hcur⟩ : ∃ cur, Sequence.current? e.sol = some cur := by
            cases hc : Sequence.current? e.sol with
            | none => rw [Sequence.push_simplification?, hc] at hpush; simp at hpush
            | some cur => exact ⟨cur, rfl⟩
          rw [Sequence.push_simplification?_of_current A e.sol simpl cur hcur] at hpush
          injection hpush with hpush
          split at h
          · rename_i r hs
            obtain ⟨out', e2'⟩ := r
            have hres := ihS _ _ _ hs
            split at h
            · rename_i r2 hf
              obtain ⟨out2, e4⟩ := r2
              have hres2 := ihF _ _ _ _ hf
              simp only [RunRes.ok.injEq, Prod.mk.injEq] at h
              rcases h with ⟨h1, h2⟩
              subst h2
              simp only at hres hres2
              refine ⟨?_, ?_, ?_⟩
              · rw [hres2.1]
                simp only [Sequence.pop_simplification]
                rw [hres.1, ← hpush, Sequence.pop_push]
              · simp [hres2.2.1, hres.2.1]
              · simp [hres2.2.2, hres.2.2]
            · simp at h
            · simp at h
          · simp at h
          · simp at h
    have hafter : ∀ out1 e1 out e2, afterYieldF A (fuel + 1) out1 e1 = .ok (out, e2) →
        e2.sol = e1.sol ∧ e2.maxiter = e1.maxiter ∧ e2.maxlabels = e1.maxlabels := by
      intro out1 e1 out e2 h
      rw [afterYieldF] at h
      split at h
      · split at h
        · rename_i r hs
          obtain ⟨out2, e2'⟩ := r
          have hres := ihS _ _ _ hs
          simp only [RunRes.ok.injEq, Prod.mk.injEq] at h
          rcases h with ⟨h1, h2⟩
          subst h2
          exact hres
        · simp at h
        · simp at h
      · simp only [RunRes.ok.injEq, Prod.mk.injEq] at h
        rcases h with ⟨h1, h2⟩
        subst h2
        exact ⟨rfl, rfl, rfl⟩
    have hprob : ∀ e out e2, problemF A (fuel + 1) e = .ok (out, e2) →
        e2.sol = e.sol ∧ e2.maxiter = e.maxiter ∧ e2.maxlabels = e.maxlabels := by
      intro e out e2 h
      rw [problemF] at h
      split at h
      · have := ihY _ _ _ _ h
        simpa using this
      · exact ihY _ _ _ _ h
    exact ⟨hprob, hafter, hsimp, hfor⟩

/-! ### Shape of the emitted sequences -/

@[simp] theorem Step.tag_finalize (A : Auto P S) (st : Step P S) :
    (Step.finalize A st).tag = st.tag := by
  cases st with
  | Initial p => rfl
  | Simplify sp => cases sp; rfl
  | Speedup p => rfl

theorem Sequence.make_printable_steps (A : Auto P S) (s : Sequence P S) :
    (s.make_printable A).steps = s.steps.map (Step.finalize A) := rfl

/-- Every sequence emitted inside an engine call is the finalization of an
extension of the live path at entry, and the extension never contains an
`Initial` step. -/
theorem engine_emits (A : Auto P S) :
    ∀ fuel : Nat,
      (∀ e out e2, problemF A fuel e = .ok (out, e2) → ∀ sq ∈ out,
        ∃ ext, sq.steps = e.sol.steps.map (Step.finalize A) ++ ext ∧
          ∀ st ∈ ext, st.tag ≠ StepTag.initial) ∧
      (∀ out1 e1 out e2, afterYieldF A fuel out1 e1 = .ok (out, e2) → ∀ sq ∈ out,
        sq ∈ out1 ∨ ∃ ext, sq.steps = e1.sol.steps.map (Step.finalize A) ++ ext ∧
          ∀ st ∈ ext, st.tag ≠ StepTag.initial) ∧
      (∀ e out e2, simplifyF A fuel e = .ok (out, e2) → ∀ sq ∈ out,
        ∃ ext, sq.steps = e.sol.steps.map (Step.finalize A) ++ ext ∧
          ∀ st ∈ ext, st.tag ≠ StepTag.initial) ∧
      (∀ l e out e2, forSimplsF A fuel l e = .ok (out, e2) → ∀ sq ∈ out,
        ∃ ext, sq.steps = e.sol.steps.map (Step.finalize A) ++ ext ∧
          ∀ st ∈ ext, st.tag ≠ StepTag.initial) := by
  intro fuel
  induction fuel with
  | zero =>
    refine ⟨?_, ?_, ?_, ?_⟩
    · intro e out e2 h; simp [problemF] at h
    · intro out1 e1 out e2 h sq hsq
      simp [afterYieldF] at h
    · intro e out e2 h; simp [simplifyF] at h
    · intro l e out e2 h; simp [forSimplsF] at h
  | succ fuel ih =>
    obtain ⟨ihP, ihY, ihS, ihF⟩ := ih
    have hsimp : ∀ e out e2, simplifyF A (fuel + 1) e = .ok (out, e2) → ∀ sq ∈ out,
        ∃ ext, sq.steps = e.sol.steps.map (Step.finalize A) ++ ext ∧
          ∀ st ∈ ext, st.tag ≠ StepTag.initial := by
      intro e out e2 h sq hsq
      rw [simplifyF] at h
      split at h
      · simp at h
      · rename_i cur hcur
        split at h
        · rename_i hnl
          split at h
          · simp at h
          · rename_i sol1 hpush
            rw [Sequence.push_speedup?_of_current A e.sol cur hcur] at hpush
            injection hpush with hpush
            split at h
            · rename_i out' e2' hp
              split at h
              · simp at h
              · rename_i sol2 hpop
                simp only [RunRes.ok.injEq, Prod.mk.injEq] at h
                rcases h with ⟨h1, h2⟩
                subst h1
                obtain ⟨ext1, hext1, htags1⟩ := ihP _ _ _ hp sq hsq
                simp only [← hpush] at hext1
                refine ⟨Step.finalize A (Step.Speedup (A.assign_chars (A.speedup cur))) :: ext1, ?_, ?_⟩
                · rw [hext1]
                  simp [List.map_append, List.append_assoc]
                · intro st hst
                  rcases List.mem_cons.1 hst with h1 | h1
                  · subst h1; simp [Step.finalize, Step.tag]
                  · exact htags1 st h1
            · simp at h
            · simp at h
        · rename_i hnl
          exact ihF _ _ _ _ h sq hsq
    have hfor : ∀ l e out e2, forSimplsF A (fuel + 1) l e = .ok (out, e2) → ∀ sq ∈ out,
        ∃ ext, sq.steps = e.sol.steps.map (Step.finalize A) ++ ext ∧
          ∀ st ∈ ext, st.tag ≠ StepTag.initial := by
      intro l e out e2 h sq hsq
      rw [forSimplsF.eq_def] at h
      simp only at h
      split at h
      · simp only [RunRes.ok.injEq, Prod.mk.injEq] at h
        rcases h with ⟨h1, h2⟩
        subst h1
        simp at hsq
      · rename_i simpl rest
        split at h
        · simp at h
        · rename_i sol1 hpush
          obtain ⟨cur, hcur⟩ : ∃ cur, Sequence.current? e.sol = some cur := by
            cases hc : Sequence.current? e.sol with
            | none => rw [Sequence.push_simplification?, hc] at hpush; simp at hpush
            | some cur => exact ⟨cur, rfl⟩
          rw [Sequence.push_simplification?_of_current A e.sol simpl cur hcur] at hpush
          injection hpush with hpush
          split at h
          · rename_i out' e2' hs
            split at h
            · rename_i out2 e4 hf
              simp only [RunRes.ok.injEq, Prod.mk.injEq] at h
              rcases h with ⟨h1, h2⟩
              subst h1
              rcases List.mem_append.1 hsq with hmem | hmem
              · obtain ⟨ext1, hext1, htags1⟩ := ihS _ _ _ hs sq hmem
                simp only [← hpush, Sequence.push] at hext1
                refine ⟨Step.finalize A (Step.Simplify (simpl, A.simplify cur simpl)) :: ext1, ?_, ?_⟩
                · rw [hext1]
                  simp [List.map_append, List.append_assoc]
                · intro st hst
                  rcases List.mem_cons.1 hst with h1 | h1
                  · subst h1; simp [Step.finalize, Step.tag]
                  · exact htags1 st h1
              · obtain ⟨ext1, hext1, htags1⟩ := ihF _ _ _ _ hf sq hmem
                have hres := ((engine_preserves A fuel).2.2.1) _ _ _ hs
                have h1 : e2'.sol = sol1 := hres.1
                have hsol : Sequence.pop_simplification e2'.sol = e.sol := by
                  rw [Sequence.pop_simplification, h1, ← hpush, Sequence.pop_push]
                simp only [hsol] at hext1
                exact ⟨ext1, hext1, htags1⟩
            · simp at h
            · simp at h
          · simp at h
          · simp at h
    have hafter : ∀ out1 e1 out e2, afterYieldF A (fuel + 1) out1 e1 = .ok (out, e2) → ∀ sq ∈ out,
        sq ∈ out1 ∨ ∃ ext, sq.steps = e1.sol.steps.map (Step.finalize A) ++ ext ∧
          ∀ st ∈ ext, st.tag ≠ StepTag.initial := by
      intro out1 e1 out e2 h sq hsq
      rw [afterYieldF] at h
      split at h
      · split at h
        · rename_i out2 e2' hs
          simp only [RunRes.ok.injEq, Prod.mk.injEq] at h
          rcases h with ⟨h1, h2⟩
          subst h1
          rcases List.mem_append.1 hsq with hmem | hmem
          · exact Or.inl hmem
          · exact Or.inr (ihS _ _ _ hs sq hmem)
        · simp at h
        · simp at h
      · simp only [RunRes.ok.injEq, Prod.mk.injEq] at h
        rcases h with ⟨h1, h2⟩
        subst h1
        exact Or.inl hsq
    have hprob : ∀ e out e2, problemF A (fuel + 1) e = .ok (out, e2) → ∀ sq ∈ out,
        ∃ ext, sq.steps = e.sol.steps.map (Step.finalize A) ++ ext ∧
          ∀ st ∈ ext, st.tag ≠ StepTag.initial := by
      intro e out e2 h sq hsq
      rw [problemF] at h
      split at h
      · rcases ihY _ _ _ _ h sq hsq with hmem | hext
        · refine ⟨[], ?_, by simp⟩
          have : sq = Sequence.make_printable A e.sol := by simpa using hmem
          rw [this, Sequence.make_printable_steps]
          simp
        · simpa using hext
      · rcases ihY _ _ _ _ h sq hsq with hmem | hext
        · simp at hmem
        · exact hext
    exact ⟨hprob, hafter, hsimp, hfor⟩

/-! ### The recursive engine never panics from a well-formed start -/

/-- As long as the live path is nonempty on entry, no engine call panics:
`current()` always finds a last step, and `pop_speedup` is only reached with
a positive speedup counter. -/
theorem engine_no_panic (A : Auto P S) :
    ∀ fuel : Nat,
      (∀ e, e.sol.steps ≠ [] → problemF A fuel e ≠ .panicked) ∧
      (∀ out1 e1, e1.sol.steps ≠ [] → afterYieldF A fuel out1 e1 ≠ .panicked) ∧
      (∀ e, e.sol.steps ≠ [] → simplifyF A fuel e ≠ .panicked) ∧
      (∀ l e, e.sol.steps ≠ [] → forSimplsF A fuel l e ≠ .panicked) := by
  intro fuel
  induction fuel with
  | zero =>
    refine ⟨?_, ?_, ?_, ?_⟩
    · intro e he; simp [problemF]
    · intro out1 e1 he
      simp [afterYieldF]
    · intro e he; simp [simplifyF]
    · intro l e he; simp [forSimplsF]
  | succ fuel ih =>
    obtain ⟨ihP, ihY, ihS, ihF⟩ := ih
    have hsimp : ∀ e : AutomaticSimplifications P S, e.sol.steps ≠ [] →
        simplifyF A (fuel + 1) e ≠ .panicked := by
      intro e he
      obtain ⟨cur, hcur⟩ := Sequence.current?_isSome e.sol he
      rw [simplifyF, hcur]
      simp only
      split
      · rename_i hnl
        rw [Sequence.push_speedup?_of_current A e.sol cur hcur]
        simp only
        split
        · rename_i out' e2' hp
          have hres := ((engine_preserves A fuel).1) _ _ _ hp
          have h1 : e2'.sol =
              { steps := e.sol.steps ++ [Step.Speedup (A.assign_chars (A.speedup cur))],
                speedups := e.sol.speedups + 1 } := hres.1
          rw [h1, Sequence.pop_speedup?_concat]
          simp
        · rename_i hp
          refine absurd hp (ihP _ ?_)
          simp
        · simp
      · rename_i hnl
        exact ihF _ _ he
    have hfor : ∀ (l : List S) (e : AutomaticSimplifications P S), e.sol.steps ≠ [] →
        forSimplsF A (fuel + 1) l e ≠ .panicked := by
      intro l e he
      rw [forSimplsF.eq_def]
      simp only
      split
      · simp
      · rename_i simpl rest
        obtain ⟨cur, hcur⟩ := Sequence.current?_isSome e.sol he
        rw [Sequence.push_simplification?_of_current A e.sol simpl cur hcur]
        simp only
        split
        · rename_i out' e2' hs
          have hres := ((engine_preserves A fuel).2.2.1) _ _ _ hs
          have h1 : e2'.sol = e.sol.push (Step.Simplify (simpl, A.simplify cur simpl)) := hres.1
          split
          · simp
          · rename_i hf
            refine absurd hf (ihF _ _ ?_)
            simp only [Sequence.pop_simplification, h1, Sequence.pop_push]
            exact he
          · simp
        · rename_i hs
          refine absurd hs (ihS _ ?_)
          simp [Sequence.push]
        · simp
    have hafter : ∀ (out1 : List (Sequence P S)) (e1 : AutomaticSimplifications P S),
        e1.sol.steps ≠ [] → afterYieldF A (fuel + 1) out1 e1 ≠ .panicked := by
      intro out1 e1 he
      rw [afterYieldF]
      split
      · split
        · simp
        · rename_i hs
          exact absurd hs (ihS _ he)
        · simp
      · simp
    have hprob : ∀ e : AutomaticSimplifications P S, e.sol.steps ≠ [] →
        problemF A (fuel + 1) e ≠ .panicked := by
      intro e he
      rw [problemF]
      split
      · exact ihY _ _ he
      · exact ihY _ _ he
    exact ⟨hprob, hafter, hsimp, hfor⟩

/-! ### With zero-label problems the engine only ever pushes speedup steps -/

/-- If every problem reports zero labels, the `num_labels <= maxlabels` test
always succeeds, so the engine never enters the simplification branch: every
emitted sequence extends the entry path by `Speedup` steps only. -/
theorem engine_speedup_only (A : Auto P S) (h0 : ∀ p, A.num_labels p = 0) :
    ∀ fuel : Nat,
      (∀ e out e2, problemF A fuel e = .ok (out, e2) → ∀ sq ∈ out,
        ∃ ext, sq.steps = e.sol.steps.map (Step.finalize A) ++ ext ∧
          ∀ st ∈ ext, st.tag = StepTag.speedup) ∧
      (∀ out1 e1 out e2, afterYieldF A fuel out1 e1 = .ok (out, e2) → ∀ sq ∈ out,
        sq ∈ out1 ∨ ∃ ext, sq.steps = e1.sol.steps.map (Step.finalize A) ++ ext ∧
          ∀ st ∈ ext, st.tag = StepTag.speedup) ∧
      (∀ e out e2, simplifyF A fuel e = .ok (out, e2) → ∀ sq ∈ out,
        ∃ ext, sq.steps = e.sol.steps.map (Step.finalize A) ++ ext ∧
          ∀ st ∈ ext, st.tag = StepTag.speedup) := by
  intro fuel
  induction fuel with
  | zero =>
    refine ⟨?_, ?_, ?_⟩
    · intro e out e2 h; simp [problemF] at h
    · intro out1 e1 out e2 h sq hsq
      simp [afterYieldF] at h
    · intro e out e2 h; simp [simplifyF] at h
  | succ fuel ih =>
    obtain ⟨ihP, ihY, ihS⟩ := ih
    have hsimp : ∀ e out e2, simplifyF A (fuel + 1) e = .ok (out, e2) → ∀ sq ∈ out,
        ∃ ext, sq.steps = e.sol.steps.map (Step.finalize A) ++ ext ∧
          ∀ st ∈ ext, st.tag = StepTag.speedup := by
      intro e out e2 h sq hsq
      rw [simplifyF] at h
      split at h
      · simp at h
      · rename_i cur hcur
        rw [if_pos (by rw [h0 cur]; exact Nat.zero_le _)] at h
        split at h
        · simp at h
        · rename_i sol1 hpush
          rw [Sequence.push_speedup?_of_current A e.sol cur hcur] at hpush
          injection hpush with hpush
          split at h
          · rename_i out' e2' hp
            split at h
            · simp at h
            · rename_i sol2 hpop
              simp only [RunRes.ok.injEq, Prod.mk.injEq] at h
              rcases h with ⟨h1, h2⟩
              subst h1
              obtain ⟨ext1, hext1, htags1⟩ := ihP _ _ _ hp sq hsq
              simp only [← hpush] at hext1
              refine ⟨Step.finalize A (Step.Speedup (A.assign_chars (A.speedup cur))) :: ext1, ?_, ?_⟩
              · rw [hext1]
                simp [List.map_append, List.append_assoc]
              · intro st hst
                rcases List.mem_cons.1 hst with h1 | h1
                · subst h1; simp [Step.finalize, Step.tag]
                · exact htags1 st h1
          · simp at h
          · simp at h
    have hafter : ∀ out1 e1 out e2, afterYieldF A (fuel + 1) out1 e1 = .ok (out, e2) → ∀ sq ∈ out,
        sq ∈ out1 ∨ ∃ ext, sq.steps = e1.sol.steps.map (Step.finalize A) ++ ext ∧
          ∀ st ∈ ext, st.tag = StepTag.speedup := by
      intro out1 e1 out e2 h sq hsq
      rw [afterYieldF] at h
      split at h
      · split at h
        · rename_i out2 e2' hs
          simp only [RunRes.ok.injEq, Prod.mk.injEq] at h
          rcases h with ⟨h1, h2⟩
          subst h1
          rcases List.mem_append.1 hsq with hmem | hmem
          · exact Or.inl hmem
          · exact Or.inr (ihS _ _ _ hs sq hmem)
        · simp at h
        · simp at h
      · simp only [RunRes.ok.injEq, Prod.mk.injEq] at h
        rcases h with ⟨h1, h2⟩
        subst h1
        exact Or.inl hsq
    have hprob : ∀ e out e2, problemF A (fuel + 1) e = .ok (out, e2) → ∀ sq ∈ out,
        ∃ ext, sq.steps = e.sol.steps.map (Step.finalize A) ++ ext ∧
          ∀ st ∈ ext, st.tag = StepTag.speedup := by
      intro e out e2 h sq hsq
      rw [problemF] at h
      split at h
      · rcases ihY _ _ _ _ h sq hsq with hmem | hext
        · refine ⟨[], ?_, by simp⟩
          have : sq = Sequence.make_printable A e.sol := by simpa using hmem
          rw [this, Sequence.make_printable_steps]
          simp
        · simpa using hext
      · rcases ihY _ _ _ _ h sq hsq with hmem | hext
        · simp at hmem
        · exact hext
    exact ⟨hprob, hafter, hsimp⟩

/-! ### Small-step facts about the iterator machine -/

theorem iterStep_empty (A : Auto P S) (it : ItState P S) (h : it.stack = []) :
    iterStep A it = .finished := by
  rw [iterStep.eq_def, h]

theorem iterStep_finished_iff (A : Auto P S) (it : ItState P S) :
    iterStep A it = .finished ↔ it.stack = [] := by
  constructor
  · intro h
    cases hs : it.stack with
    | nil => rfl
    | cons top rest =>
      rw [iterStep.eq_def, hs] at h
      cases top <;> simp only at h <;>
        (try split at h) <;> (try split at h) <;> (try split at h) <;> simp_all
  · exact iterStep_empty A it

theorem iterStep_problem_yield (A : Auto P S) (e : AutomaticSimplifications P S)
    (rest : List (MState P S)) (hy : A.should_yield e.sol e.best e.maxiter = true) :
    iterStep A ⟨e, MState.Problem :: rest⟩ =
      .yielded (Sequence.make_printable A e.sol)
        ⟨{ e with best := Sequence.make_printable A e.sol },
         MState.ProblemAfterCheckYield :: rest⟩ := by
  simp [iterStep, hy]

theorem iterStep_problem_noyield (A : Auto P S) (e : AutomaticSimplifications P S)
    (rest : List (MState P S)) (hy : A.should_yield e.sol e.best e.maxiter = false) :
    iterStep A ⟨e, MState.Problem :: rest⟩ =
      .stepped ⟨e, MState.ProblemAfterCheckYield :: rest⟩ := by
  simp [iterStep, hy]

theorem iterStep_pacy_continue (A : Auto P S) (e : AutomaticSimplifications P S)
    (rest : List (MState P S)) (hc : A.should_continue e.sol e.best e.maxiter = true) :
    iterStep A ⟨e, MState.ProblemAfterCheckYield :: rest⟩ =
      .stepped ⟨e, MState.Simplify :: rest⟩ := by
  simp [iterStep, hc]

theorem iterStep_pacy_stop (A : Auto P S) (e : AutomaticSimplifications P S)
    (rest : List (MState P S)) (hc : A.should_continue e.sol e.best e.maxiter = false) :
    iterStep A ⟨e, MState.ProblemAfterCheckYield :: rest⟩ = .stepped ⟨e, rest⟩ := by
  simp [iterStep, hc]

theorem iterStep_simplify_speedup (A : Auto P S) (e : AutomaticSimplifications P S)
    (rest : List (MState P S)) (cur : P) (sol1 : Sequence P S)
    (hcur : Sequence.current? e.sol = some cur)
    (hnl : A.num_labels cur ≤ e.maxlabels)
    (hpush : Sequence.push_speedup? A e.sol = some sol1) :
    iterStep A ⟨e, MState.Simplify :: rest⟩ =
      .stepped ⟨{ e with sol := sol1 },
        MState.Problem :: MState.SimplifyAfterProblemCall :: rest⟩ := by
  simp [iterStep, hcur, hnl, hpush]

theorem iterStep_simplify_branch (A : Auto P S) (e : AutomaticSimplifications P S)
    (rest : List (MState P S)) (cur : P)
    (hcur : Sequence.current? e.sol = some cur)
    (hnl : ¬ A.num_labels cur ≤ e.maxlabels) :
    iterStep A ⟨e, MState.Simplify :: rest⟩ =
      .stepped ⟨e, MState.SimplifySimplify (A.simplifications e.sol e.maxlabels) :: rest⟩ := by
  simp [iterStep, hcur, hnl]

theorem iterStep_sapc (A : Auto P S) (e : AutomaticSimplifications P S)
    (rest : List (MState P S)) (sol1 : Sequence P S)
    (hpop : Sequence.pop_speedup? e.sol = some sol1) :
    iterStep A ⟨e, MState.SimplifyAfterProblemCall :: rest⟩ =
      .stepped ⟨{ e with sol := sol1 }, rest⟩ := by
  simp [iterStep, hpop]

theorem iterStep_ss_nil (A : Auto P S) (e : AutomaticSimplifications P S)
    (rest : List (MState P S)) :
    iterStep A ⟨e, MState.SimplifySimplify [] :: rest⟩ = .stepped ⟨e, rest⟩ := by
  simp [iterStep]

theorem iterStep_ss_cons (A : Auto P S) (e : AutomaticSimplifications P S)
    (rest : List (MState P S)) (simpl : S) (l2 : List S) (sol1 : Sequence P S)
    (hpush : Sequence.push_simplification? A simpl e.sol = some sol1) :
    iterStep A ⟨e, MState.SimplifySimplify (simpl :: l2) :: rest⟩ =
      .stepped ⟨{ e with sol := sol1 },
        MState.Simplify :: MState.SimplifyAfterSimplifyCall ::
          MState.SimplifySimplify l2 :: rest⟩ := by
  simp [iterStep, hpush]

theorem iterStep_sasc (A : Auto P S) (e : AutomaticSimplifications P S)
    (rest : List (MState P S)) :
    iterStep A ⟨e, MState.SimplifyAfterSimplifyCall :: rest⟩ =
      .stepped ⟨{ e with sol := Sequence.pop_simplification e.sol }, rest⟩ := by
  simp [iterStep]

/-! ### Composition laws for `runN` -/

theorem runN_empty (A : Auto P S) (n : Nat) (it : ItState P S) (h : it.stack = []) :
    runN A n it = .ok ([], it) := by
  cases n with
  | zero => rfl
  | succ n => rw [runN, iterStep_empty A it h]

theorem runN_stepped (A : Auto P S) (n : Nat) {it it2 : ItState P S}
    (h : iterStep A it = .stepped it2) :
    runN A (n + 1) it = runN A n it2 := by
  rw [runN, h]

theorem runN_one_stepped (A : Auto P S) {it it2 : ItState P S}
    (h : iterStep A it = .stepped it2) :
    runN A 1 it = .ok ([], it2) := by
  rw [runN_stepped A 0 h]; rfl

theorem runN_yielded_ok (A : Auto P S) (n : Nat) {it it2 it3 : ItState P S}
    {v : Sequence P S} {out : List (Sequence P S)}
    (h : iterStep A it = .yielded v it2) (h2 : runN A n it2 = .ok (out, it3)) :
    runN A (n + 1) it = .ok (v :: out, it3) := by
  simp [runN, h, h2]

theorem runN_trans (A : Auto P S) :
    ∀ (n1 : Nat) (it : ItState P S) (o1 : List (Sequence P S)) (it1 : ItState P S)
      (n2 : Nat) (o2 : List (Sequence P S)) (it2 : ItState P S),
      runN A n1 it = .ok (o1, it1) → runN A n2 it1 = .ok (o2, it2) →
      runN A (n1 + n2) it = .ok (o1 ++ o2, it2) := by
  intro n1
  induction n1 with
  | zero =>
    intro it o1 it1 n2 o2 it2 h1 h2
    rw [runN] at h1
    simp only [RunRes.ok.injEq, Prod.mk.injEq] at h1
    rcases h1 with ⟨h1a, h1b⟩
    subst h1a
    subst h1b
    simpa using h2
  | succ n1 ih =>
    intro it o1 it1 n2 o2 it2 h1 h2
    cases hstep : iterStep A it with
    | finished =>
      have hst : it.stack = [] := (iterStep_finished_iff A it).1 hstep
      rw [runN, hstep] at h1
      simp only [RunRes.ok.injEq, Prod.mk.injEq] at h1
      rcases h1 with ⟨h1a, h1b⟩
      subst h1a
      subst h1b
      rw [runN_empty A n2 it hst] at h2
      simp only [RunRes.ok.injEq, Prod.mk.injEq] at h2
      rcases h2 with ⟨h2a, h2b⟩
      subst h2a
      subst h2b
      simpa using runN_empty A (n1 + 1 + n2) it hst
    | panicked => rw [runN, hstep] at h1; simp at h1
    | yielded v it' =>
      rw [runN] at h1
      simp only [hstep] at h1
      cases hrun : runN A n1 it' with
      | ok r =>
        obtain ⟨o1', it1'⟩ := r
        simp only [hrun, RunRes.ok.injEq, Prod.mk.injEq] at h1
        rcases h1 with ⟨h1a, h1b⟩
        subst h1a
        subst h1b
        have := ih it' o1' _ n2 o2 it2 hrun h2
        have hgoal := runN_yielded_ok A (n1 + n2) hstep this
        rw [show n1 + 1 + n2 = n1 + n2 + 1 by omega]
        simpa using hgoal
      | panicked => simp [hrun] at h1
      | nofuel => simp [hrun] at h1
    | stepped it' =>
      rw [runN] at h1
      simp only [hstep] at h1
      have := ih it' o1 it1 n2 o2 it2 h1 h2
      rw [show n1 + 1 + n2 = n1 + n2 + 1 by omega]
      rw [runN_stepped A (n1 + n2) hstep]
      exact this

/-! ### The iterator machine simulates the recursive engine -/

/-- Simulation: whenever a recursive engine call terminates with output
`out`, the iterator machine started with the corresponding marker on top of
an arbitrary stack `rest` reaches, in some number of loop iterations, exactly
the state below the marker, yielding exactly `out` along the way.  For
`afterYieldF`, the values `out1` already emitted by the first half of
`problem` are split off. -/
theorem engine_sim (A : Auto P S) :
    ∀ fuel : Nat,
      (∀ e out e2, problemF A fuel e = .ok (out, e2) → ∀ rest : List (MState P S),
        ∃ n, runN A n ⟨e, MState.Problem :: rest⟩ = .ok (out, ⟨e2, rest⟩)) ∧
      (∀ out1 e1 out e2, afterYieldF A fuel out1 e1 = .ok (out, e2) →
        ∃ out2, out = out1 ++ out2 ∧ ∀ rest : List (MState P S),
          ∃ n, runN A n ⟨e1, MState.ProblemAfterCheckYield :: rest⟩ = .ok (out2, ⟨e2, rest⟩)) ∧
      (∀ e out e2, simplifyF A fuel e = .ok (out, e2) → ∀ rest : List (MState P S),
        ∃ n, runN A n ⟨e, MState.Simplify :: rest⟩ = .ok (out, ⟨e2, rest⟩)) ∧
      (∀ l e out e2, forSimplsF A fuel l e = .ok (out, e2) → ∀ rest : List (MState P S),
        ∃ n, runN A n ⟨e, MState.SimplifySimplify l :: rest⟩ = .ok (out, ⟨e2, rest⟩)) := by
  intro fuel
  induction fuel with
  | zero =>
    refine ⟨?_, ?_, ?_, ?_⟩
    · intro e out e2 h; simp [problemF] at h
    · intro out1 e1 out e2 h
      simp [afterYieldF] at h
    · intro e out e2 h; simp [simplifyF] at h
    · intro l e out e2 h; simp [forSimplsF] at h
  | succ fuel ih =>
    obtain ⟨ihP, ihY, ihS, ihF⟩ := ih
    have hsimpSIM : ∀ e out e2, simplifyF A (fuel + 1) e = .ok (out, e2) →
        ∀ rest : List (MState P S),
          ∃ n, runN A n ⟨e, MState.Simplify :: rest⟩ = .ok (out, ⟨e2, rest⟩) := by
      intro e out e2 h rest
      rw [simplifyF] at h
      split at h
      · simp at h
      · rename_i cur hcur
        split at h
        · rename_i hnl
          split at h
          · simp at h
          · rename_i sol1 hpushv
            split at h
            · rename_i out' e2' hp
              split at h
              · simp at h
              · rename_i sol2 hpop
                simp only [RunRes.ok.injEq, Prod.mk.injEq] at h
                rcases h with ⟨h1, h2⟩
                subst h1
                subst h2
                obtain ⟨n1, hrun1⟩ :=
                  ihP _ _ _ hp (MState.SimplifyAfterProblemCall :: rest)
                have hstep1 := iterStep_simplify_speedup A e rest cur sol1 hcur hnl hpushv
                have hstep2 := iterStep_sapc A e2' rest sol2 hpop
                have hrun2 := runN_one_stepped A hstep2
                have hcomp := runN_trans A n1 _ _ _ 1 _ _ hrun1 hrun2
                refine ⟨n1 + 1 + 1, ?_⟩
                rw [runN_stepped A (n1 + 1) hstep1]
                simpa using hcomp
            · simp at h
            · simp at h
        · rename_i hnl
          obtain ⟨n1, hrun1⟩ := ihF _ _ _ _ h rest
          have hstep1 := iterStep_simplify_branch A e rest cur hcur hnl
          refine ⟨n1 + 1, ?_⟩
          rw [runN_stepped A n1 hstep1]
          exact hrun1
    have hforSIM : ∀ l e out e2, forSimplsF A (fuel + 1) l e = .ok (out, e2) →
        ∀ rest : List (MState P S),
          ∃ n, runN A n ⟨e, MState.SimplifySimplify l :: rest⟩ = .ok (out, ⟨e2, rest⟩) := by
      intro l e out e2 h rest
      rw [forSimplsF.eq_def] at h
      simp only at h
      split at h
      · simp only [RunRes.ok.injEq, Prod.mk.injEq] at h
        rcases h with ⟨h1, h2⟩
        subst h1
        subst h2
        exact ⟨1, by rw [runN_one_stepped A (iterStep_ss_nil A e rest)]⟩
      · rename_i simpl rest_l
        split at h
        · simp at h
        · rename_i sol1 hpushv
          split at h
          · rename_i out' e2' hs
            split at h
            · rename_i out2 e4 hf
              simp only [RunRes.ok.injEq, Prod.mk.injEq] at h
              rcases h with ⟨h1, h2⟩
              subst h1
              subst h2
              obtain ⟨n1, hrun1⟩ := ihS _ _ _ hs
                (MState.SimplifyAfterSimplifyCall :: MState.SimplifySimplify rest_l :: rest)
              obtain ⟨n2, hrun2⟩ := ihF _ _ _ _ hf rest
              have hstep1 := iterStep_ss_cons A e rest simpl rest_l sol1 hpushv
              have hstep2 := iterStep_sasc A e2' (MState.SimplifySimplify rest_l :: rest)
              have hrun2' := runN_one_stepped A hstep2
              have hcomp1 := runN_trans A n1 _ _ _ 1 _ _ hrun1 hrun2'
              have hcomp2 := runN_trans A (n1 + 1) _ _ _ n2 _ _ hcomp1 hrun2
              refine ⟨n1 + 1 + n2 + 1, ?_⟩
              rw [runN_stepped A (n1 + 1 + n2) hstep1]
              simpa using hcomp2
            · simp at h
            · simp at h
          · simp at h
          · simp at h
    have hafterSIM : ∀ out1 e1 out e2, afterYieldF A (fuel + 1) out1 e1 = .ok (out, e2) →
        ∃ out2, out = out1 ++ out2 ∧ ∀ rest : List (MState P S),
          ∃ n, runN A n ⟨e1, MState.ProblemAfterCheckYield :: rest⟩ = .ok (out2, ⟨e2, rest⟩) := by
      intro out1 e1 out e2 h
      rw [afterYieldF] at h
      split at h
      · rename_i hc
        split at h
        · rename_i out2 e2' hs
          simp only [RunRes.ok.injEq, Prod.mk.injEq] at h
          rcases h with ⟨h1, h2⟩
          subst h1
          subst h2
          refine ⟨out2, rfl, ?_⟩
          intro rest
          obtain ⟨n1, hrun1⟩ := ihS _ _ _ hs rest
          have hstep1 := iterStep_pacy_continue A e1 rest hc
          refine ⟨n1 + 1, ?_⟩
          rw [runN_stepped A n1 hstep1]
          exact hrun1
        · simp at h
        · simp at h
      · rename_i hc
        simp only [RunRes.ok.injEq, Prod.mk.injEq] at h
        rcases h with ⟨h1, h2⟩
        subst h1
        subst h2
        refine ⟨[], by simp, ?_⟩
        intro rest
        have hc' : A.should_continue e1.sol e1.best e1.maxiter = false := by
          simpa using hc
        exact ⟨1, by rw [runN_one_stepped A (iterStep_pacy_stop A e1 rest hc')]⟩
    have hprobSIM : ∀ e out e2, problemF A (fuel + 1) e = .ok (out, e2) →
        ∀ rest : List (MState P S),
          ∃ n, runN A n ⟨e, MState.Problem :: rest⟩ = .ok (out, ⟨e2, rest⟩) := by
      intro e out e2 h rest
      rw [problemF] at h
      split at h
      · rename_i hy
        obtain ⟨out2, hout, hrunY⟩ := ihY _ _ _ _ h
        obtain ⟨n1, hrun1⟩ := hrunY rest
        have hstep1 := iterStep_problem_yield A e rest hy
        subst hout
        refine ⟨n1 + 1, ?_⟩
        have := runN_yielded_ok A n1 hstep1 hrun1
        simpa using this
      · rename_i hy
        obtain ⟨out2, hout, hrunY⟩ := ihY _ _ _ _ h
        obtain ⟨n1, hrun1⟩ := hrunY rest
        have hy' : A.should_yield e.sol e.best e.maxiter = false := by simpa using hy
        have hstep1 := iterStep_problem_noyield A e rest hy'
        subst hout
        refine ⟨n1 + 1, ?_⟩
        rw [runN_stepped A n1 hstep1]
        simpa using hrun1
    exact ⟨hprobSIM, hafterSIM, hsimpSIM, hforSIM⟩

/-! ### Relating `runN` to successive `next()` calls -/

theorem iterNext_stepped (A : Auto P S) (g : Nat) {it it2 : ItState P S}
    (h : iterStep A it = .stepped it2) :
    iterNext A (g + 1) it = iterNext A g it2 := by
  rw [iterNext, h]

theorem iterNext_empty (A : Auto P S) (g : Nat) (it : ItState P S) (h : it.stack = []) :
    iterNext A (g + 1) it = .ok (none, it) := by
  rw [iterNext, iterStep_empty A it h]

theorem iterNext_yielded (A : Auto P S) (g : Nat) {it it2 : ItState P S} {v : Sequence P S}
    (h : iterStep A it = .yielded v it2) :
    iterNext A (g + 1) it = .ok (some v, it2) := by
  rw [iterNext, h]

theorem yieldsAll_stepped (A : Auto P S) {it it2 itf : ItState P S}
    {out : List (Sequence P S)} (h : iterStep A it = .stepped it2)
    (hy : YieldsAll A it2 out itf) : YieldsAll A it out itf := by
  cases hy with
  | nil _ _ g hnext =>
    exact .nil _ _ (g + 1) (by rw [iterNext_stepped A g h]; exact hnext)
  | cons _ it1 _ v out g hnext htail =>
    exact .cons _ _ _ _ _ (g + 1) (by rw [iterNext_stepped A g h]; exact hnext) htail

/-- A complete `runN` trace ending with an empty marker stack is exactly the
list of values obtained by calling `next()` repeatedly until it returns
`None`. -/
theorem yieldsAll_of_runN (A : Auto P S) :
    ∀ (n : Nat) (it itf : ItState P S) (out : List (Sequence P S)),
      runN A n it = .ok (out, itf) → itf.stack = [] → YieldsAll A it out itf := by
  intro n
  induction n with
  | zero =>
    intro it itf out h hstack
    rw [runN] at h
    simp only [RunRes.ok.injEq, Prod.mk.injEq] at h
    rcases h with ⟨h1, h2⟩
    subst h1
    subst h2
    exact .nil _ _ 1 (iterNext_empty A 0 it hstack)
  | succ n ihn =>
    intro it itf out h hstack
    cases hstep : iterStep A it with
    | finished =>
      rw [runN] at h
      simp only [hstep, RunRes.ok.injEq, Prod.mk.injEq] at h
      rcases h with ⟨h1, h2⟩
      subst h1
      subst h2
      exact .nil _ _ 1 (iterNext_empty A 0 it ((iterStep_finished_iff A it).1 hstep))
    | panicked =>
      rw [runN] at h
      simp [hstep] at h
    | yielded v it2 =>
      rw [runN] at h
      simp only [hstep] at h
      cases hrun : runN A n it2 with
      | ok r =>
        obtain ⟨out2, itf'⟩ := r
        simp only [hrun, RunRes.ok.injEq, Prod.mk.injEq] at h
        rcases h with ⟨h1, h2⟩
        subst h1
        subst h2
        exact .cons _ _ _ _ _ 1 (iterNext_yielded A 0 hstep) (ihn it2 _ out2 hrun hstack)
      | panicked => simp [hrun] at h
      | nofuel => simp [hrun] at h
    | stepped it2 =>
      rw [runN] at h
      simp only [hstep] at h
      exact yieldsAll_stepped A hstep (ihn it2 itf out h hstack)

/-! ### Once yielded, values are never revised: output streams extend monotonically -/

/-- Splitting a `runN` trace: the first `n` iterations produce a prefix of
the whole trace, and the remainder continues from where they stopped. -/
theorem runN_decompose (A : Auto P S) :
    ∀ (n k : Nat) (it : ItState P S) (o : List (Sequence P S)) (itf : ItState P S),
      runN A (n + k) it = .ok (o, itf) →
      ∃ o1 it1 o2, runN A n it = .ok (o1, it1) ∧ runN A k it1 = .ok (o2, itf) ∧
        o = o1 ++ o2 := by
  intro n
  induction n with
  | zero =>
    intro k it o itf h
    exact ⟨[], it, o, rfl, by simpa using h, by simp⟩
  | succ n ihn =>
    intro k it o itf h
    rw [show n + 1 + k = n + k + 1 by omega] at h
    cases hstep : iterStep A it with
    | finished =>
      have hst := (iterStep_finished_iff A it).1 hstep
      rw [runN] at h
      simp only [hstep, RunRes.ok.injEq, Prod.mk.injEq] at h
      rcases h with ⟨h1, h2⟩
      subst h1
      subst h2
      exact ⟨[], it, [], runN_empty A (n + 1) it hst, runN_empty A k it hst, by simp⟩
    | panicked =>
      rw [runN] at h
      simp [hstep] at h
    | yielded v it2 =>
      rw [runN] at h
      simp only [hstep] at h
      cases hrun : runN A (n + k) it2 with
      | ok r =>
        obtain ⟨o', itf'⟩ := r
        simp only [hrun, RunRes.ok.injEq, Prod.mk.injEq] at h
        rcases h with ⟨h1, h2⟩
        subst h1
        subst h2
        obtain ⟨o1, it1, o2, ha, hb, hc⟩ := ihn k it2 o' _ hrun
        exact ⟨v :: o1, it1, o2, runN_yielded_ok A n hstep ha, hb, by simp [hc]⟩
      | panicked => simp [hrun] at h
      | nofuel => simp [hrun] at h
    | stepped it2 =>
      rw [runN] at h
      simp only [hstep] at h
      obtain ⟨o1, it1, o2, ha, hb, hc⟩ := ihn k it2 o itf h
      exact ⟨o1, it1, o2, by rw [runN_stepped A n hstep]; exact ha, hb, hc⟩

/-! ### The counter invariant: `speedups` counts the `Speedup` steps -/

theorem countSpeedups_eq_tags (l : List (Step P S)) :
    countSpeedups l = countSpeedupTags (l.map Step.tag) := by
  induction l with
  | nil => rfl
  | cons st r ih =>
    cases st with
    | Initial p => simp [countSpeedups, Step.tag, countSpeedupTags, ih]
    | Simplify sp => simp [countSpeedups, Step.tag, countSpeedupTags, ih]
    | Speedup p => simp [countSpeedups, Step.tag, countSpeedupTags, ih]

theorem countSpeedupTags_append (a b : List StepTag) :
    countSpeedupTags (a ++ b) = countSpeedupTags a + countSpeedupTags b := by
  induction a with
  | nil => simp [countSpeedupTags]
  | cons t r ih =>
    cases t <;> simp [countSpeedupTags, ih] <;> omega

theorem countSpeedupTags_reverse (l : List StepTag) :
    countSpeedupTags l.reverse = countSpeedupTags l := by
  induction l with
  | nil => rfl
  | cons t r ih =>
    cases t <;>
      simp [countSpeedupTags, List.reverse_cons, countSpeedupTags_append, ih] <;> omega

theorem machineInv_steps_ne_nil {it : ItState P S} (h : MachineInv it) :
    it.auto.sol.steps ≠ [] := by
  intro hnil
  have := h.1
  rw [hnil] at this
  simp at this

theorem Sequence.pop_speedup?_of_succ (s : Sequence P S) (m : Nat)
    (h : s.speedups = m + 1) :
    s.pop_speedup? = some { steps := s.steps.dropLast, speedups := m } := by
  rw [Sequence.pop_speedup?, h]
  simp [Sequence.pop]

/-- Counter form of the invariant: in every well-formed iterator state the
`speedups` counter equals the number of `Speedup` steps on the live path. -/
theorem machineInv_count {it : ItState P S} (h : MachineInv it) :
    it.auto.sol.speedups = countSpeedups it.auto.sol.steps := by
  rw [countSpeedups_eq_tags, h.1]
  simp [countSpeedupTags, countSpeedupTags_reverse]
  exact h.2

/-- One loop iteration preserves the machine invariant and never panics. -/
theorem machineInv_step (A : Auto P S) (it : ItState P S) (hinv : MachineInv it) :
    iterStep A it ≠ .panicked ∧
    (∀ it2, iterStep A it = .stepped it2 → MachineInv it2) ∧
    (∀ v it2, iterStep A it = .yielded v it2 → MachineInv it2) := by
  obtain ⟨a, stk⟩ := it
  obtain ⟨htags, hcount⟩ := hinv
  simp only at htags hcount
  have hne : a.sol.steps ≠ [] := by
    intro hnil
    rw [hnil] at htags
    simp at htags
  cases stk with
  | nil =>
    refine ⟨by simp [iterStep], ?_, ?_⟩
    · intro it2 h; simp [iterStep] at h
    · intro v it2 h; simp [iterStep] at h
  | cons top rest =>
    cases top with
    | Problem =>
      simp only [pendingUndo] at htags hcount
      by_cases hy : A.should_yield a.sol a.best a.maxiter
      · have hstep := iterStep_problem_yield A a rest hy
        refine ⟨by rw [hstep]; simp, ?_, ?_⟩
        · intro it2 h
          rw [hstep] at h
          simp at h
        · intro v it2 h
          rw [hstep] at h
          injection h with hv h
          subst h
          exact ⟨by simpa [pendingUndo] using htags, by simpa [pendingUndo] using hcount⟩
      · have hy' : A.should_yield a.sol a.best a.maxiter = false := by simpa using hy
        have hstep := iterStep_problem_noyield A a rest hy'
        refine ⟨by rw [hstep]; simp, ?_, ?_⟩
        · intro it2 h
          rw [hstep] at h
          injection h with h
          subst h
          exact ⟨by simpa [pendingUndo] using htags, by simpa [pendingUndo] using hcount⟩
        · intro v it2 h
          rw [hstep] at h
          simp at h
    | ProblemAfterCheckYield =>
      simp only [pendingUndo] at htags hcount
      by_cases hc : A.should_continue a.sol a.best a.maxiter
      · have hstep := iterStep_pacy_continue A a rest hc
        refine ⟨by rw [hstep]; simp, ?_, ?_⟩
        · intro it2 h
          rw [hstep] at h
          injection h with h
          subst h
          exact ⟨by simpa [pendingUndo] using htags, by simpa [pendingUndo] using hcount⟩
        · intro v it2 h
          rw [hstep] at h
          simp at h
      · have hc' : A.should_continue a.sol a.best a.maxiter = false := by simpa using hc
        have hstep := iterStep_pacy_stop A a rest hc'
        refine ⟨by rw [hstep]; simp, ?_, ?_⟩
        · intro it2 h
          rw [hstep] at h
          injection h with h
          subst h
          exact ⟨by simpa [pendingUndo] using htags, by simpa [pendingUndo] using hcount⟩
        · intro v it2 h
          rw [hstep] at h
          simp at h
    | Simplify =>
      simp only [pendingUndo] at htags hcount
      obtain ⟨cur, hcur⟩ := Sequence.current?_isSome a.sol hne
      by_cases hnl : A.num_labels cur ≤ a.maxlabels
      · have hpush := Sequence.push_speedup?_of_current A a.sol cur hcur
        have hstep := iterStep_simplify_speedup A a rest cur _ hcur hnl hpush
        refine ⟨by rw [hstep]; simp, ?_, ?_⟩
        · intro it2 h
          rw [hstep] at h
          injection h with h
          subst h
          constructor
          · simp only [pendingUndo]
            simp [List.map_append, htags, List.reverse_cons, Step.tag]
          · simp only [pendingUndo]
            simp [countSpeedupTags, hcount]
        · intro v it2 h
          rw [hstep] at h
          simp at h
      · have hstep := iterStep_simplify_branch A a rest cur hcur hnl
        refine ⟨by rw [hstep]; simp, ?_, ?_⟩
        · intro it2 h
          rw [hstep] at h
          injection h with h
          subst h
          exact ⟨by simpa [pendingUndo] using htags, by simpa [pendingUndo] using hcount⟩
        · intro v it2 h
          rw [hstep] at h
          simp at h
    | SimplifyAfterProblemCall =>
      simp only [pendingUndo, countSpeedupTags] at htags hcount
      have hpop := Sequence.pop_speedup?_of_succ a.sol
        (countSpeedupTags (pendingUndo rest)) hcount
      have hstep := iterStep_sapc A a rest _ hpop
      refine ⟨by rw [hstep]; simp, ?_, ?_⟩
      · intro it2 h
        rw [hstep] at h
        injection h with h
        subst h
        constructor
        · simp only
          rw [List.map_dropLast, htags, List.reverse_cons, ← List.cons_append,
            List.dropLast_concat]
        · rfl
      · intro v it2 h
        rw [hstep] at h
        simp at h
    | SimplifyAfterSimplifyCall =>
      simp only [pendingUndo, countSpeedupTags] at htags hcount
      have hstep := iterStep_sasc A a rest
      refine ⟨by rw [hstep]; simp, ?_, ?_⟩
      · intro it2 h
        rw [hstep] at h
        injection h with h
        subst h
        constructor
        · simp only [Sequence.pop_simplification, Sequence.pop]
          rw [List.map_dropLast, htags, List.reverse_cons, ← List.cons_append,
            List.dropLast_concat]
        · simpa [Sequence.pop_simplification, Sequence.pop] using hcount
      · intro v it2 h
        rw [hstep] at h
        simp at h
    | SimplifySimplify l =>
      simp only [pendingUndo] at htags hcount
      cases l with
      | nil =>
        have hstep := iterStep_ss_nil A a rest
        refine ⟨by rw [hstep]; simp, ?_, ?_⟩
        · intro it2 h
          rw [hstep] at h
          injection h with h
          subst h
          exact ⟨htags, hcount⟩
        · intro v it2 h
          rw [hstep] at h
          simp at h
      | cons simpl l2 =>
        obtain ⟨cur, hcur⟩ := Sequence.current?_isSome a.sol hne
        have hpush := Sequence.push_simplification?_of_current A a.sol simpl cur hcur
        have hstep := iterStep_ss_cons A a rest simpl l2 _ hpush
        refine ⟨by rw [hstep]; simp, ?_, ?_⟩
        · intro it2 h
          rw [hstep] at h
          injection h with h
          subst h
          constructor
          · simp only [pendingUndo, Sequence.push]
            simp [List.map_append, htags, List.reverse_cons, Step.tag]
          · simp only [pendingUndo, Sequence.push]
            simp [countSpeedupTags, hcount]
        · intro v it2 h
          rw [hstep] at h
          simp at h

/-- Any number of loop iterations from a well-formed iterator state neither
panics nor breaks the invariant. -/
theorem machineInv_runN (A : Auto P S) :
    ∀ (n : Nat) (it : ItState P S), MachineInv it →
      runN A n it ≠ .panicked ∧
      (∀ out itf, runN A n it = .ok (out, itf) → MachineInv itf) := by
  intro n
  induction n with
  | zero =>
    intro it hinv
    refine ⟨by simp [runN], ?_⟩
    intro out itf h
    rw [runN] at h
    simp only [RunRes.ok.injEq, Prod.mk.injEq] at h
    rcases h with ⟨h1, h2⟩
    subst h2
    exact hinv
  | succ n ihn =>
    intro it hinv
    obtain ⟨hnp, hstepped, hyielded⟩ := machineInv_step A it hinv
    cases hstep : iterStep A it with
    | finished =>
      refine ⟨by rw [runN, hstep]; simp, ?_⟩
      intro out itf h
      rw [runN] at h
      simp only [hstep, RunRes.ok.injEq, Prod.mk.injEq] at h
      rcases h with ⟨h1, h2⟩
      subst h2
      exact hinv
    | panicked => exact absurd hstep hnp
    | yielded v it2 =>
      have hinv2 := hyielded v it2 hstep
      obtain ⟨hnp2, hok2⟩ := ihn it2 hinv2
      constructor
      · rw [runN]
        simp only [hstep]
        cases hrun : runN A n it2 with
        | ok r => obtain ⟨o, i⟩ := r; simp
        | panicked => exact absurd hrun hnp2
        | nofuel => simp
      · intro out itf h
        rw [runN] at h
        simp only [hstep] at h
        cases hrun : runN A n it2 with
        | ok r =>
          obtain ⟨o, i⟩ := r
          simp only [hrun, RunRes.ok.injEq, Prod.mk.injEq] at h
          rcases h with ⟨h1, h2⟩
          subst h2
          exact hok2 _ _ hrun
        | panicked => simp [hrun] at h
        | nofuel => simp [hrun] at h
    | stepped it2 =>
      have hinv2 := hstepped it2 hstep
      obtain ⟨hnp2, hok2⟩ := ihn it2 hinv2
      constructor
      · rw [runN]
        simp only [hstep]
        exact hnp2
      · intro out itf h
        rw [runN] at h
        simp only [hstep] at h
        exact hok2 _ _ h

/-- The iterator produced by `into_iter` from a freshly created search state
is well formed. -/
theorem machineInv_new (p : P) (maxiter maxlabels : Nat) :
    MachineInv ((AutomaticSimplifications.new (S := S) p maxiter maxlabels).into_iter) := by
  constructor <;>
    simp [AutomaticSimplifications.new, AutomaticSimplifications.into_iter,
      Sequence.new, pendingUndo, Step.tag, countSpeedupTags]

/-! ### The claims -/

/-- C1: for every initial Problem, strategy and budgets, whenever the
callback-driven `run` terminates, the ordered list of Sequences it passes to
the callback is exactly the ordered list of values returned by successive
`next()` calls of the external iterator until one returns `None`. -/
theorem claim_c1_run_iterator_equivalence (A : Auto P S) (p0 : P)
    (maxiter maxlabels fuel : Nat) (out : List (Sequence P S))
    (e2 : AutomaticSimplifications P S)
    (h : AutomaticSimplifications.runF A fuel
      (AutomaticSimplifications.new p0 maxiter maxlabels) = .ok (out, e2)) :
    ∃ itf, YieldsAll A ((AutomaticSimplifications.new p0 maxiter maxlabels).into_iter) out itf ∧
      itf.stack = [] := by
  have h' : problemF A fuel (AutomaticSimplifications.new p0 maxiter maxlabels) =
      .ok (out, e2) := h
  obtain ⟨n, hrun⟩ := (engine_sim A fuel).1 _ _ _ h' []
  exact ⟨⟨e2, []⟩, yieldsAll_of_runN A n _ _ _ hrun rfl, rfl⟩

theorem claim_c1_witness :
    ∃ itf, YieldsAll trivialAuto ((AutomaticSimplifications.new () 0 0).into_iter) [] itf ∧
      itf.stack = [] :=
  claim_c1_run_iterator_equivalence trivialAuto () 0 0 3 []
    (AutomaticSimplifications.new () 0 0) rfl

/-- C3: after a subtree rooted at a `simplify` call is fully explored, the
live Sequence (steps and speedup counter) is exactly its value on entry;
in the iterator, once all markers pushed for the subtree are popped the
machine is at the same stack with the same restored live path. -/
theorem claim_c3_stack_symmetry (A : Auto P S) (fuel : Nat)
    (e e2 : AutomaticSimplifications P S) (out : List (Sequence P S))
    (h : simplifyF A fuel e = .ok (out, e2)) :
    e2.sol = e.sol ∧
    ∀ rest : List (MState P S), ∃ n,
      runN A n ⟨e, MState.Simplify :: rest⟩ = .ok (out, ⟨e2, rest⟩) :=
  ⟨((engine_preserves A fuel).2.2.1 _ _ _ h).1,
   fun rest => (engine_sim A fuel).2.2.1 _ _ _ h rest⟩

theorem claim_c3_witness :
    (AutomaticSimplifications.new (S := Unit) () 0 0).sol =
      (AutomaticSimplifications.new () 0 0).sol ∧
    ∀ rest : List (MState Unit Unit), ∃ n,
      runN trivialAuto n ⟨AutomaticSimplifications.new () 0 0, MState.Simplify :: rest⟩ =
        .ok ([], ⟨AutomaticSimplifications.new () 0 0, rest⟩) :=
  claim_c3_stack_symmetry trivialAuto 3
    (AutomaticSimplifications.new () 0 0) (AutomaticSimplifications.new () 0 0) [] rfl

/-- C5: when the recursive search terminates, the iterator reaches, after
emitting the same values, a state with an empty marker stack whose live
path is unwound back to exactly the `Initial` step, and from that state
every further `next()` call returns `None`. -/
theorem claim_c5_exhaustion (A : Auto P S) (p0 : P) (maxiter maxlabels fuel : Nat)
    (out : List (Sequence P S)) (e2 : AutomaticSimplifications P S)
    (h : problemF A fuel (AutomaticSimplifications.new p0 maxiter maxlabels) =
      .ok (out, e2)) :
    ∃ n itf,
      runN A n ((AutomaticSimplifications.new p0 maxiter maxlabels).into_iter) =
        .ok (out, itf) ∧
      itf.stack = [] ∧
      itf.auto.sol.steps = [Step.Initial p0] ∧
      ∀ g : Nat, iterNext A (g + 1) itf = .ok (none, itf) := by
  obtain ⟨n, hrun⟩ := (engine_sim A fuel).1 _ _ _ h []
  have hsol := ((engine_preserves A fuel).1 _ _ _ h).1
  refine ⟨n, ⟨e2, []⟩, hrun, rfl, ?_, ?_⟩
  · rw [show (ItState.mk e2 ([] : List (MState P S))).auto = e2 from rfl, hsol]
    rfl
  · intro g
    exact iterNext_empty A g _ rfl

theorem claim_c5_witness :
    ∃ n itf,
      runN trivialAuto n ((AutomaticSimplifications.new () 0 0).into_iter) =
        .ok ([], itf) ∧
      itf.stack = [] ∧
      itf.auto.sol.steps = [Step.Initial ()] ∧
      ∀ g : Nat, iterNext trivialAuto (g + 1) itf = .ok (none, itf) :=
  claim_c5_exhaustion trivialAuto () 0 0 3 [] (AutomaticSimplifications.new () 0 0) rfl

/-- C9: a value handed out by the iterator is never retroactively altered by
continuing the search: the output stream after more iterations extends the
earlier stream, element for element (in the model, Rust's `clone` of the
best Sequence is a value copy, so this prefix stability is exactly the
absence of retroactive mutation). -/
theorem claim_c9_emitted_values_stable (A : Auto P S) (it : ItState P S)
    (n m : Nat) (o1 o2 : List (Sequence P S)) (it1 it2 : ItState P S)
    (hnm : n ≤ m)
    (h1 : runN A n it = .ok (o1, it1)) (h2 : runN A m it = .ok (o2, it2)) :
    ∃ tail, o2 = o1 ++ tail := by
  obtain ⟨o1', it1', o2', ha, hb, hc⟩ :=
    runN_decompose A n (m - n) it o2 it2 (by rwa [show n + (m - n) = m by omega])
  rw [h1] at ha
  simp only [RunRes.ok.injEq, Prod.mk.injEq] at ha
  rcases ha with ⟨ha1, ha2⟩
  exact ⟨o2', by rw [hc, ha1]⟩

theorem claim_c9_witness :
    ∃ tail, ([] : List (Sequence Unit Unit)) = [] ++ tail :=
  claim_c9_emitted_values_stable trivialAuto
    ((AutomaticSimplifications.new () 0 0).into_iter) 1 2 [] []
    ⟨AutomaticSimplifications.new () 0 0, [MState.ProblemAfterCheckYield]⟩
    ⟨AutomaticSimplifications.new () 0 0, []⟩ (by omega) rfl rfl

/-- C10: starting from `AutomaticSimplifications::new`, neither the
recursive engine nor the iterator ever panics (in particular `pop_speedup`
is never invoked with a zero counter, so the unchecked decrement cannot
underflow), and in every state the iterator can reach, the `speedups`
counter of the live Sequence equals the number of `Speedup` steps in its
step list. -/
theorem claim_c10_speedup_counter_safe (A : Auto P S) (p0 : P) (maxiter maxlabels : Nat) :
    (∀ fuel, problemF A fuel (AutomaticSimplifications.new p0 maxiter maxlabels) ≠ .panicked) ∧
    (∀ n, runN A n ((AutomaticSimplifications.new p0 maxiter maxlabels).into_iter) ≠ .panicked) ∧
    (∀ n out itf,
      runN A n ((AutomaticSimplifications.new p0 maxiter maxlabels).into_iter) = .ok (out, itf) →
      itf.auto.sol.speedups = countSpeedups itf.auto.sol.steps) := by
  refine ⟨?_, ?_, ?_⟩
  · intro fuel
    exact (engine_no_panic A fuel).1 _ (by simp [AutomaticSimplifications.new, Sequence.new])
  · intro n
    exact (machineInv_runN A n _ (machineInv_new p0 maxiter maxlabels)).1
  · intro n out itf h
    exact machineInv_count ((machineInv_runN A n _ (machineInv_new p0 maxiter maxlabels)).2 _ _ h)

theorem claim_c10_witness :
    (AutomaticSimplifications.new (S := Unit) () 0 0).sol.speedups =
      countSpeedups (AutomaticSimplifications.new (S := Unit) () 0 0).sol.steps :=
  (claim_c10_speedup_counter_safe trivialAuto () 0 0).2.2 2 []
    ⟨AutomaticSimplifications.new () 0 0, []⟩ rfl

/-- C2 counterexample: with `maxlabels = 0` and a root problem with one
label, the engine takes the simplification branch (the speedup branch
requires `num_labels <= maxlabels`), and the produced Sequence contains a
`Simplify` step — refuting that with `maxlabels = 0` every produced Sequence
consists solely of `Initial` followed by `Speedup` steps. -/
theorem claim_c2_counterexample :
    (RunRes.emitted (problemF simplifyAnywayAuto 9 (AutomaticSimplifications.new 1 5 0))).map
        (fun sq => sq.steps.map Step.tag) =
      [[StepTag.initial, StepTag.simplify, StepTag.speedup]] := by
  rfl

/-- C2 amended: with `maxlabels = 0` the engine prefers speedup exactly at
nodes whose current problem has zero labels; in particular, if every problem
reports zero labels, every Sequence produced (by the recursive engine, and
identically by the iterator) is the `Initial` root followed only by
`Speedup` steps. -/
theorem claim_c2_budget_speedup_only (A : Auto P S) (p0 : P) (maxiter fuel : Nat)
    (out : List (Sequence P S)) (e2 : AutomaticSimplifications P S)
    (h0 : ∀ q, A.num_labels q = 0)
    (h : problemF A fuel (AutomaticSimplifications.new p0 maxiter 0) = .ok (out, e2)) :
    (∀ sq ∈ out, ∃ ext, sq.steps = Step.Initial (A.as_result p0) :: ext ∧
      ∀ st ∈ ext, st.tag = StepTag.speedup) ∧
    ∃ itf, YieldsAll A ((AutomaticSimplifications.new p0 maxiter 0).into_iter) out itf := by
  constructor
  · intro sq hsq
    obtain ⟨ext, hext, htags⟩ := (engine_speedup_only A h0 fuel).1 _ _ _ h sq hsq
    refine ⟨ext, ?_, htags⟩
    simpa [AutomaticSimplifications.new, Sequence.new, Step.finalize] using hext
  · obtain ⟨n, hrun⟩ := (engine_sim A fuel).1 _ _ _ h []
    exact ⟨⟨e2, []⟩, yieldsAll_of_runN A n _ _ _ hrun rfl⟩

theorem claim_c2_witness :
    (∀ sq ∈ [(⟨[Step.Initial (), Step.Speedup (), Step.Speedup ()], 2⟩ : Sequence Unit Unit)],
      ∃ ext, Sequence.steps sq = Step.Initial () :: ext ∧
        ∀ st ∈ ext, st.tag = StepTag.speedup) ∧
    ∃ itf, YieldsAll speedTwiceAuto ((AutomaticSimplifications.new () 5 0).into_iter)
      [(⟨[Step.Initial (), Step.Speedup (), Step.Speedup ()], 2⟩ : Sequence Unit Unit)] itf :=
  claim_c2_budget_speedup_only speedTwiceAuto () 5 20
    [(⟨[Step.Initial (), Step.Speedup (), Step.Speedup ()], 2⟩ : Sequence Unit Unit)]
    { AutomaticSimplifications.new () 5 0 with
      best := (⟨[Step.Initial (), Step.Speedup (), Step.Speedup ()], 2⟩ : Sequence Unit Unit) }
    (fun _ => rfl) rfl

/-- C4: every Sequence emitted by either form starts with `Step::Initial`
carrying the original Problem (unchanged, given that the canonicalization
pass `as_result` leaves the root handle unchanged, as the spec asserts), and
`Initial` occurs nowhere else in the sequence. -/
theorem claim_c4_root_invariant (A : Auto P S) (p0 : P) (maxiter maxlabels fuel : Nat)
    (out : List (Sequence P S)) (e2 : AutomaticSimplifications P S)
    (h : problemF A fuel (AutomaticSimplifications.new p0 maxiter maxlabels) = .ok (out, e2))
    (hres : A.as_result p0 = p0) :
    (∀ sq ∈ out, sq.steps.head? = some (Step.Initial p0) ∧
      ∀ st ∈ sq.steps.tail, st.tag ≠ StepTag.initial) ∧
    ∃ itf, YieldsAll A ((AutomaticSimplifications.new p0 maxiter maxlabels).into_iter) out itf := by
  constructor
  · intro sq hsq
    obtain ⟨ext, hext, htags⟩ := (engine_emits A fuel).1 _ _ _ h sq hsq
    have hsteps : sq.steps = Step.Initial p0 :: ext := by
      simpa [AutomaticSimplifications.new, Sequence.new, Step.finalize, hres] using hext
    rw [hsteps]
    exact ⟨rfl, fun st hst => htags st hst⟩
  · obtain ⟨n, hrun⟩ := (engine_sim A fuel).1 _ _ _ h []
    exact ⟨⟨e2, []⟩, yieldsAll_of_runN A n _ _ _ hrun rfl⟩

theorem claim_c4_witness :
    (∀ sq ∈ [Sequence.new (S := Unit) ()],
      (Sequence.steps sq).head? = some (Step.Initial ()) ∧
      ∀ st ∈ (Sequence.steps sq).tail, st.tag ≠ StepTag.initial) ∧
    ∃ itf, YieldsAll yieldRootAuto ((AutomaticSimplifications.new () 0 0).into_iter)
      [Sequence.new ()] itf :=
  claim_c4_root_invariant yieldRootAuto () 0 0 3 [Sequence.new ()]
    { AutomaticSimplifications.new () 0 0 with best := Sequence.new () } rfl rfl

/-- C8 counterexample: `Sequence::pop` delegates to `Vec::pop`, which on the
one-element vector holding only the `Initial` step succeeds silently,
leaving an empty (invariant-violating) path instead of failing loudly. -/
theorem claim_c8_counterexample :
    Sequence.pop (Sequence.new (S := Unit) (1 : Nat)) =
      { steps := [], speedups := 0 } ∧
    Sequence.current? (Sequence.pop (Sequence.new (S := Unit) (1 : Nat))) = none :=
  ⟨rfl, rfl⟩

/-- C8 amended: popping a Sequence holding only the `Initial` step silently
yields an empty step list (`Vec::pop` does not panic), while reading
`current()` of an empty Sequence fails loudly (the `unwrap` panic, modelled
by `none`) rather than silently producing a Problem. -/
theorem claim_c8_pop_silent_current_panics :
    (∀ s : Sequence P S, s.steps = [] → s.current? = none) ∧
    (∀ p : P, (Sequence.pop (Sequence.new (S := S) p)).steps = []) := by
  constructor
  · intro s hs
    rw [Sequence.current?, hs]
    rfl
  · intro p
    rfl

theorem claim_c8_witness :
    Sequence.current? (Sequence.mk ([] : List (Step Nat Unit)) 3) = none :=
  (claim_c8_pop_silent_current_panics (P := Nat) (S := Unit)).1 (Sequence.mk [] 3) rfl

theorem getElem?_append_cons {α : Type} (l t : List α) (x : α) :
    (l ++ x :: t)[l.length]? = some x := by
  rw [List.getElem?_append_right (Nat.le_refl _)]
  simp

theorem getElem?_append_singleton_append {α : Type} (l : List α) (x : α) (t : List α) :
    ((l ++ [x]) ++ t)[l.length]? = some x := by
  rw [List.append_assoc]
  simpa using getElem?_append_cons l t x

theorem forSimplsF_nil (A : Auto P S) (f : Nat) (e : AutomaticSimplifications P S) :
    forSimplsF A (f + 1) [] e = .ok ([], e) := by
  rw [forSimplsF.eq_def]

/-- C6: when the strategy offers the candidates `[a, b]` at a node taking
the simplification branch, the output of the subtree is the concatenation of
`a`'s subtree output followed by `b`'s subtree output; every sequence from
the first block passes through the `Simplify(a, ·)` step at the branching
depth and every sequence from the second block passes through
`Simplify(b, ·)` there — so any improvement found under `a` is emitted
strictly before any found under `b`. -/
theorem claim_c6_sibling_order (A : Auto P S) (fuel : Nat)
    (e e2 : AutomaticSimplifications P S) (out : List (Sequence P S))
    (a b : S) (cur : P)
    (hcur : Sequence.current? e.sol = some cur)
    (hnl : ¬ A.num_labels cur ≤ e.maxlabels)
    (hcands : A.simplifications e.sol e.maxlabels = [a, b])
    (h : simplifyF A fuel e = .ok (out, e2)) :
    ∃ outA outB, out = outA ++ outB ∧
      (∀ sq ∈ outA, sq.steps[e.sol.steps.length]? =
        some (Step.Simplify (a, A.as_result (A.simplify cur a)))) ∧
      (∀ sq ∈ outB, sq.steps[e.sol.steps.length]? =
        some (Step.Simplify (b, A.as_result (A.simplify cur b)))) := by
  cases fuel with
  | zero => simp [simplifyF] at h
  | succ f =>
    rw [simplifyF, hcur] at h
    simp only at h
    rw [if_neg hnl, hcands] at h
    cases f with
    | zero => simp [forSimplsF] at h
    | succ f2 =>
      rw [forSimplsF.eq_def] at h
      simp only at h
      rw [Sequence.push_simplification?_of_current A e.sol a cur hcur] at h
      simp only at h
      split at h
      · rename_i outA eA hsA
        split at h
        · rename_i outR e4 hfR
          simp only [RunRes.ok.injEq, Prod.mk.injEq] at h
          rcases h with ⟨h1, h2⟩
          subst h1
          have hresA := (engine_preserves A f2).2.2.1 _ _ _ hsA
          have heA : eA.sol = e.sol.push (Step.Simplify (a, A.simplify cur a)) := hresA.1
          have houtA : ∀ sq ∈ outA, sq.steps[e.sol.steps.length]? =
              some (Step.Simplify (a, A.as_result (A.simplify cur a))) := by
            intro sq hsq
            obtain ⟨ext, hext, _⟩ := (engine_emits A f2).2.2.1 _ _ _ hsA sq hsq
            simp only [Sequence.push] at hext
            rw [hext, List.map_append]
            have := getElem?_append_singleton_append
              (e.sol.steps.map (Step.finalize A))
              (Step.finalize A (Step.Simplify (a, A.simplify cur a))) ext
            simpa [Step.finalize] using this
          have he3sol : (Sequence.pop_simplification eA.sol) = e.sol := by
            rw [heA, Sequence.pop_simplification, Sequence.pop_push]
          -- unfold the [b] iteration
          cases f2 with
          | zero => simp [forSimplsF] at hfR
          | succ f3 =>
            rw [forSimplsF.eq_def] at hfR
            simp only at hfR
            have hcur3 : Sequence.current?
                ({ eA with sol := Sequence.pop_simplification eA.sol } :
                  AutomaticSimplifications P S).sol = some cur := by
              simp only [he3sol]
              exact hcur
            rw [Sequence.push_simplification?_of_current A _ b cur hcur3] at hfR
            simp only [he3sol] at hfR
            split at hfR
            · rename_i outB eB hsB
              split at hfR
              · rename_i out2' e4' hnil
                simp only [RunRes.ok.injEq, Prod.mk.injEq] at hfR
                rcases hfR with ⟨hf1, hf2⟩
                subst hf1
                have hnil2 : out2' = [] := by
                  cases f3 with
                  | zero => simp [forSimplsF] at hnil
                  | succ f4 =>
                    rw [forSimplsF_nil] at hnil
                    simp only [RunRes.ok.injEq, Prod.mk.injEq] at hnil
                    exact hnil.1.symm
                subst hnil2
                refine ⟨outA, outB ++ [], rfl, houtA, ?_⟩
                intro sq hsq
                rw [List.append_nil] at hsq
                obtain ⟨ext, hext, _⟩ := (engine_emits A f3).2.2.1 _ _ _ hsB sq hsq
                have hext2 : sq.steps =
                    ((e.sol.steps ++ [Step.Simplify (b, A.simplify cur b)]).map
                      (Step.finalize A)) ++ ext := by
                  simpa [Sequence.push] using hext
                rw [hext2, List.map_append]
                have := getElem?_append_singleton_append
                  (e.sol.steps.map (Step.finalize A))
                  (Step.finalize A (Step.Simplify (b, A.simplify cur b))) ext
                simpa [Step.finalize] using this
              · simp at hfR
              · simp at hfR
            · simp at hfR
            · simp at hfR
        · simp at h
        · simp at h
      · simp at h
      · simp at h

set_option maxHeartbeats 1000000 in
theorem claim_c6_witness :
    ∃ outA outB,
      ([⟨[Step.Initial 1, Step.Simplify (10, 10), Step.Speedup 10], 1⟩,
        ⟨[Step.Initial 1, Step.Simplify (20, 20), Step.Speedup 20], 1⟩] :
          List (Sequence Nat Nat)) = outA ++ outB ∧
      (∀ sq ∈ outA, (Sequence.steps sq)[1]? = some (Step.Simplify (10, 10))) ∧
      (∀ sq ∈ outB, (Sequence.steps sq)[1]? = some (Step.Simplify (20, 20))) :=
  claim_c6_sibling_order twoCandidatesAuto 6 (AutomaticSimplifications.new 1 5 0)
    ⟨⟨[Step.Initial 1], 0⟩, ⟨[Step.Initial 1, Step.Simplify (20, 20), Step.Speedup 20], 1⟩, 5, 0⟩
    [⟨[Step.Initial 1, Step.Simplify (10, 10), Step.Speedup 10], 1⟩,
     ⟨[Step.Initial 1, Step.Simplify (20, 20), Step.Speedup 20], 1⟩]
    10 20 1 rfl (by decide) rfl (by decide)

theorem countSpeedupTags_replicate (k : Nat) :
    countSpeedupTags (List.replicate k StepTag.speedup) = k := by
  induction k with
  | zero => rfl
  | succ k ih => simp [List.replicate_succ, countSpeedupTags, ih]

theorem countSpeedups_of_tags (l : List (Step P S)) (k : Nat)
    (h : l.map Step.tag = StepTag.initial :: List.replicate k StepTag.speedup) :
    countSpeedups l = k := by
  rw [countSpeedups_eq_tags, h]
  simpa [countSpeedupTags] using countSpeedupTags_replicate k

/-- Symbolic execution of the spec's concrete scenario: from a live path
with `k` speedup steps, a terminating engine call emits the single sequence
`[Initial, Speedup, Speedup]` exactly when the subtree still contains the
depth-2 node (and nothing otherwise). -/
theorem c7_run_aux (A : Auto P S)
    (h0 : ∀ q, A.num_labels q = 0)
    (hy : ∀ s b m, A.should_yield s b m = (countSpeedups s.steps == 2))
    (hc : ∀ s b m, A.should_continue s b m = decide (s.speedups < m)) :
    ∀ fuel : Nat,
      (∀ e k out e2, e.maxiter = 5 → e.sol.speedups = k →
        e.sol.steps.map Step.tag = StepTag.initial :: List.replicate k StepTag.speedup →
        problemF A fuel e = .ok (out, e2) →
        out.map (fun sq => sq.steps.map Step.tag) =
          if k ≤ 2 then [[StepTag.initial, StepTag.speedup, StepTag.speedup]] else []) ∧
      (∀ out1 e1 k out e2, e1.maxiter = 5 → e1.sol.speedups = k →
        e1.sol.steps.map Step.tag = StepTag.initial :: List.replicate k StepTag.speedup →
        afterYieldF A fuel out1 e1 = .ok (out, e2) →
        out.map (fun sq => sq.steps.map Step.tag) =
          out1.map (fun sq => sq.steps.map Step.tag) ++
            if k ≤ 1 then [[StepTag.initial, StepTag.speedup, StepTag.speedup]] else []) ∧
      (∀ e k out e2, e.maxiter = 5 → e.sol.speedups = k →
        e.sol.steps.map Step.tag = StepTag.initial :: List.replicate k StepTag.speedup →
        simplifyF A fuel e = .ok (out, e2) →
        out.map (fun sq => sq.steps.map Step.tag) =
          if k + 1 ≤ 2 then [[StepTag.initial, StepTag.speedup, StepTag.speedup]] else []) := by
  intro fuel
  induction fuel with
  | zero =>
    refine ⟨?_, ?_, ?_⟩
    · intro e k out e2 _ _ _ h; simp [problemF] at h
    · intro out1 e1 k out e2 _ _ _ h; simp [afterYieldF] at h
    · intro e k out e2 _ _ _ h; simp [simplifyF] at h
  | succ fuel ih =>
    obtain ⟨ihP, ihY, ihS⟩ := ih
    have hsimp : ∀ e k out e2, e.maxiter = 5 → e.sol.speedups = k →
        e.sol.steps.map Step.tag = StepTag.initial :: List.replicate k StepTag.speedup →
        simplifyF A (fuel + 1) e = .ok (out, e2) →
        out.map (fun sq => sq.steps.map Step.tag) =
          if k + 1 ≤ 2 then [[StepTag.initial, StepTag.speedup, StepTag.speedup]] else [] := by
      intro e k out e2 h5 hk htags h
      rw [simplifyF] at h
      have hne : e.sol.steps ≠ [] := by
        intro hn; rw [hn] at htags; simp at htags
      obtain ⟨cur, hcur⟩ := Sequence.current?_isSome e.sol hne
      rw [hcur] at h
      simp only at h
      rw [if_pos (by rw [h0 cur]; exact Nat.zero_le _)] at h
      rw [Sequence.push_speedup?_of_current A e.sol cur hcur] at h
      simp only at h
      split at h
      · rename_i out' e2' hp
        split at h
        · simp at h
        · rename_i sol2 hpop
          simp only [RunRes.ok.injEq, Prod.mk.injEq] at h
          rcases h with ⟨h1, h2⟩
          subst h1
          exact ihP
            { e with sol :=
              { steps := e.sol.steps ++ [Step.Speedup (A.assign_chars (A.speedup cur))],
                speedups := e.sol.speedups + 1 } }
            (k + 1) out' e2' h5
            (by show e.sol.speedups + 1 = k + 1
                rw [hk])
            (by show (e.sol.steps ++ [Step.Speedup (A.assign_chars (A.speedup cur))]).map Step.tag =
                  StepTag.initial :: List.replicate (k + 1) StepTag.speedup
                rw [List.map_append, htags, List.replicate_succ']
                simp [Step.tag]) hp
      · simp at h
      · simp at h
    have hafter : ∀ out1 e1 k out e2, e1.maxiter = 5 → e1.sol.speedups = k →
        e1.sol.steps.map Step.tag = StepTag.initial :: List.replicate k StepTag.speedup →
        afterYieldF A (fuel + 1) out1 e1 = .ok (out, e2) →
        out.map (fun sq => sq.steps.map Step.tag) =
          out1.map (fun sq => sq.steps.map Step.tag) ++
            if k ≤ 1 then [[StepTag.initial, StepTag.speedup, StepTag.speedup]] else [] := by
      intro out1 e1 k out e2 h5 hk htags h
      rw [afterYieldF] at h
      by_cases hk5 : k < 5
      · have hcb : A.should_continue e1.sol e1.best e1.maxiter = true := by
          rw [hc, hk, h5]
          simpa using hk5
        rw [if_pos hcb] at h
        split at h
        · rename_i out2 e2' hs
          simp only [RunRes.ok.injEq, Prod.mk.injEq] at h
          rcases h with ⟨h1, h2⟩
          subst h1
          have hres := ihS e1 k out2 e2' h5 hk htags hs
          rw [List.map_append, hres]
          congr 1
          by_cases hk1 : k ≤ 1
          · rw [if_pos (by omega : k + 1 ≤ 2), if_pos hk1]
          · rw [if_neg (by omega : ¬ k + 1 ≤ 2), if_neg hk1]
        · simp at h
        · simp at h
      · have hcb : A.should_continue e1.sol e1.best e1.maxiter = false := by
          rw [hc, hk, h5]
          simpa using hk5
        rw [if_neg (by simp [hcb])] at h
        simp only [RunRes.ok.injEq, Prod.mk.injEq] at h
        rcases h with ⟨h1, h2⟩
        subst h1
        rw [if_neg (by omega : ¬ k ≤ 1)]
        simp
    have hprob : ∀ e k out e2, e.maxiter = 5 → e.sol.speedups = k →
        e.sol.steps.map Step.tag = StepTag.initial :: List.replicate k StepTag.speedup →
        problemF A (fuel + 1) e = .ok (out, e2) →
        out.map (fun sq => sq.steps.map Step.tag) =
          if k ≤ 2 then [[StepTag.initial, StepTag.speedup, StepTag.speedup]] else [] := by
      intro e k out e2 h5 hk htags h
      rw [problemF] at h
      have hcs : countSpeedups e.sol.steps = k := countSpeedups_of_tags _ _ htags
      by_cases hk2 : k = 2
      · have hyb : A.should_yield e.sol e.best e.maxiter = true := by
          rw [hy, hcs, hk2]
          rfl
        rw [if_pos hyb] at h
        have hres := ihY [Sequence.make_printable A e.sol]
          { e with best := Sequence.make_printable A e.sol } k out e2 h5 hk htags h
        rw [hres]
        subst hk2
        rw [if_pos (by omega : (2 : Nat) ≤ 2), if_neg (by omega : ¬ (2 : Nat) ≤ 1)]
        simp only [List.map_cons, List.map_nil, Sequence.make_printable_steps,
          List.map_map, List.append_nil]
        have : e.sol.steps.map (Step.tag ∘ Step.finalize A) = e.sol.steps.map Step.tag := by
          apply List.map_congr_left
          intro st _
          simp
        rw [this, htags]
        simp [List.replicate]
      · have hyb : A.should_yield e.sol e.best e.maxiter = false := by
          rw [hy, hcs]
          simp [hk2]
        rw [if_neg (by simp [hyb])] at h
        have hres := ihY [] e k out e2 h5 hk htags h
        rw [hres]
        by_cases hk1 : k ≤ 1
        · rw [if_pos hk1, if_pos (by omega : k ≤ 2)]
          simp
        · rw [if_neg hk1, if_neg (by omega : ¬ k ≤ 2)]
          simp
    exact ⟨hprob, hafter, hsimp⟩

/-- Termination of the spec's concrete scenario: from a live path with `k`
speedup steps and at most `m` speedups still allowed before the budget `5`
is reached, the engine terminates with some fuel. -/
theorem c7_terminates (A : Auto P S)
    (h0 : ∀ q, A.num_labels q = 0)
    (hy : ∀ s b m, A.should_yield s b m = (countSpeedups s.steps == 2))
    (hc : ∀ s b m, A.should_continue s b m = decide (s.speedups < m)) :
    ∀ (m : Nat) (e : AutomaticSimplifications P S) (k : Nat),
      e.maxiter = 5 → e.sol.speedups = k →
      e.sol.steps.map Step.tag = StepTag.initial :: List.replicate k StepTag.speedup →
      5 ≤ k + m →
      ∃ fuel out e2, problemF A fuel e = .ok (out, e2) := by
  intro m
  induction m with
  | zero =>
    intro e k h5 hk htags hkm
    have hcs : countSpeedups e.sol.steps = k := countSpeedups_of_tags _ _ htags
    have hyb : A.should_yield e.sol e.best e.maxiter = false := by
      rw [hy, hcs, beq_eq_false_iff_ne]
      omega
    have hcb : A.should_continue e.sol e.best e.maxiter = false := by
      rw [hc, hk, h5, decide_eq_false_iff_not]
      omega
    refine ⟨1 + 1, [], e, ?_⟩
    rw [problemF, if_neg (by simp [hyb]), afterYieldF, if_neg (by simp [hcb])]
  | succ m ihm =>
    intro e k h5 hk htags hkm
    by_cases hk5 : 5 ≤ k
    · have hcs : countSpeedups e.sol.steps = k := countSpeedups_of_tags _ _ htags
      have hyb : A.should_yield e.sol e.best e.maxiter = false := by
        rw [hy, hcs, beq_eq_false_iff_ne]
        omega
      have hcb : A.should_continue e.sol e.best e.maxiter = false := by
        rw [hc, hk, h5, decide_eq_false_iff_not]
        omega
      refine ⟨1 + 1, [], e, ?_⟩
      rw [problemF, if_neg (by simp [hyb]), afterYieldF, if_neg (by simp [hcb])]
    · have hne : e.sol.steps ≠ [] := by
        intro hn; rw [hn] at htags; simp at htags
      obtain ⟨cur, hcur⟩ := Sequence.current?_isSome e.sol hne
      have hstep : ∀ e1 : AutomaticSimplifications P S, e1.sol = e.sol → e1.maxiter = 5 →
          ∀ out1, ∃ fuel out e2, afterYieldF A (fuel + 1) out1 e1 = .ok (out, e2) := by
        intro e1 hsol h5' out1
        have hcb : A.should_continue e1.sol e1.best e1.maxiter = true := by
          rw [hc, hsol, hk, h5']
          simpa using (by omega : k < 5)
        have hcur1 : Sequence.current? e1.sol = some cur := by rw [hsol]; exact hcur
        obtain ⟨F, out', e2', hp⟩ := ihm
          { e1 with sol :=
            { steps := e1.sol.steps ++ [Step.Speedup (A.assign_chars (A.speedup cur))],
              speedups := e1.sol.speedups + 1 } }
          (k + 1) h5'
          (by show e1.sol.speedups + 1 = k + 1
              rw [hsol, hk])
          (by show (e1.sol.steps ++ [Step.Speedup (A.assign_chars (A.speedup cur))]).map Step.tag =
                StepTag.initial :: List.replicate (k + 1) StepTag.speedup
              rw [hsol, List.map_append, htags, List.replicate_succ']
              simp [Step.tag])
          (by omega)
        refine ⟨F + 1, out1 ++ out', { e2' with sol := e1.sol }, ?_⟩
        rw [afterYieldF, if_pos hcb, simplifyF, hcur1]
        simp only
        rw [if_pos (by rw [h0 cur]; exact Nat.zero_le _)]
        rw [Sequence.push_speedup?_of_current A e1.sol cur hcur1]
        simp only
        rw [hp]
        simp only
        have hsol2 : e2'.sol =
            { steps := e1.sol.steps ++ [Step.Speedup (A.assign_chars (A.speedup cur))],
              speedups := e1.sol.speedups + 1 } := ((engine_preserves A F).1 _ _ _ hp).1
        rw [hsol2, Sequence.pop_speedup?_concat]
      by_cases hyb : A.should_yield e.sol e.best e.maxiter = true
      · obtain ⟨F, out, e2, hAY⟩ :=
          hstep { e with best := Sequence.make_printable A e.sol } rfl h5
            [Sequence.make_printable A e.sol]
        refine ⟨F + 1 + 1, out, e2, ?_⟩
        rw [problemF, if_pos hyb]
        exact hAY
      · obtain ⟨F, out, e2, hAY⟩ := hstep e rfl h5 []
        refine ⟨F + 1 + 1, out, e2, ?_⟩
        rw [problemF, if_neg hyb]
        exact hAY

/-- C7: for any strategy with `num_labels` identically zero (so every node
takes the speedup branch), `should_yield` true exactly when the live path
holds exactly two `Speedup` steps, and `should_continue` bounding the
speedup count by `maxiter`, the search with `maxiter = 5` terminates and
emits exactly one Sequence, whose step shape is
`[Initial, Speedup, Speedup]`. -/
theorem claim_c7_concrete_scenario (A : Auto P S) (p0 : P) (maxlabels : Nat)
    (h0 : ∀ q, A.num_labels q = 0)
    (hy : ∀ s b m, A.should_yield s b m = (countSpeedups s.steps == 2))
    (hc : ∀ s b m, A.should_continue s b m = decide (s.speedups < m)) :
    (∀ fuel out e2,
      problemF A fuel (AutomaticSimplifications.new p0 5 maxlabels) = .ok (out, e2) →
      out.map (fun sq => sq.steps.map Step.tag) =
        [[StepTag.initial, StepTag.speedup, StepTag.speedup]]) ∧
    (∃ fuel out e2,
      problemF A fuel (AutomaticSimplifications.new p0 5 maxlabels) = .ok (out, e2)) := by
  constructor
  · intro fuel out e2 h
    have := (c7_run_aux A h0 hy hc fuel).1 (AutomaticSimplifications.new p0 5 maxlabels)
      0 out e2 rfl rfl
      (by simp [AutomaticSimplifications.new, Sequence.new, Step.tag]) h
    simpa using this
  · exact c7_terminates A h0 hy hc 5 (AutomaticSimplifications.new p0 5 maxlabels) 0 rfl rfl
      (by simp [AutomaticSimplifications.new, Sequence.new, Step.tag]) (by omega)

theorem claim_c7_witness :
    (∀ fuel out e2,
      problemF speedTwiceAuto fuel (AutomaticSimplifications.new () 5 0) = .ok (out, e2) →
      out.map (fun sq => sq.steps.map Step.tag) =
        [[StepTag.initial, StepTag.speedup, StepTag.speedup]]) ∧
    (∃ fuel out e2,
      problemF speedTwiceAuto fuel (AutomaticSimplifications.new () 5 0) = .ok (out, e2)) :=
  claim_c7_concrete_scenario speedTwiceAuto () 0 (fun _ => rfl)
    (fun _ _ _ => rfl) (fun _ _ _ => rfl)
